import Mathlib

/-!
Shallow embedding of the `adiff` function-level differ
(`src/tools/j-tools-package/adiff/`), together with theorems settling the
spec claims about it.  Buffers are modelled as `List Char` (the C code works
on NUL-terminated byte buffers; reads past the end through the terminator are
modelled by `charAt`, which returns the NUL character).  C `int` offsets that
are always non-negative are modelled as `Nat`; values that can be negative
(function-extent fields, selector digits) as `Int`.  Loops whose index
advances by a data-dependent amount are modelled by structural recursion on a
fuel argument; every wrapper passes fuel that provably exceeds the number of
iterations, so the fuel-exhaustion branch is unreachable in all theorems.
-/

set_option maxHeartbeats 1600000

/-- The NUL-terminator model of C reads `buffer[i]`: in-bounds reads give the
byte, the read at `buffer.length` (and beyond) gives NUL. -/
def charAt (buffer : List Char) (i : Nat) : Char :=
  buffer.getD i (Char.ofNat 0)

/-- `pragma_type` from `adiff.h`. -/
inductive pragma_type where
  | PRAGMA_IF | PRAGMA_ELSE | PRAGMA_ENDIF | PRAGMA_OTHER
  | STRING | LITERAL | COMMENT | OTHER | ESCSEQ
deriving DecidableEq, Repr

/-- `item` from `adiff.h`: an inclusive byte-offset span with a kind.
(`end` is a Lean keyword, hence the field name `end_`.) -/
structure item where
  begin : Nat
  end_ : Nat
  type : pragma_type
deriving DecidableEq, Repr

/-- The inner loop of `clear` (adiff_storage.c): `for (j = begin; j <= end; j++)
buffer[j] = ' '`, expressed as `count = end + 1 - begin` successive `set`s. -/
def blankRange (buffer : List Char) (begin : Nat) (count : Nat) : List Char :=
  (List.range count).foldl (fun b k => b.set (begin + k) ' ') buffer

/-- `clear` (adiff_storage.c): overwrite every item's span with spaces. -/
def clear (buffer : List Char) (Items : List item) : List Char :=
  Items.foldl (fun b it => blankRange b it.begin (it.end_ + 1 - it.begin)) buffer

/-- `fentry` from `adiff.h`. -/
structure fentry where
  fname : String
  fbegin : Int
  fend : Int
deriving DecidableEq, Repr

/-- One step of the inner loop of `select_best_func_limits` (adiff_parse.c):
look for the first destination entry with the same name; found ⇒ update it in
place with `MIN`/`MAX`, not found ⇒ append (`fadd`). -/
def merge_entry : List fentry → fentry → List fentry
  | [], x => [x]
  | d :: rest, x =>
      if d.fname = x.fname then
        ⟨d.fname, min d.fbegin x.fbegin, max d.fend x.fend⟩ :: rest
      else
        d :: merge_entry rest x

/-- `select_best_func_limits` (adiff_parse.c): fold every entry of every
surviving per-choice function set into an initially empty destination. -/
def select_best_func_limits (source : List (List fentry)) : List fentry :=
  source.foldl (fun destination s => s.foldl merge_entry destination) []

/-- `check_func_duplicates` (adiff_parse.c): double index loop looking for two
distinct positions holding the same name. -/
def check_func_duplicates (functions : List fentry) : Bool :=
  (List.range functions.length).any fun i =>
    (List.range functions.length).any fun j =>
      decide (i ≠ j) &&
        ((functions.getD i ⟨"", 0, 0⟩).fname == (functions.getD j ⟨"", 0, 0⟩).fname)

/-- The loop of `find_functions` (adiff_parse.c): run the per-choice extractor
for choices `0 .. current-1`, keeping the function sets of the successful
choices in order (`counter++` on success, choice dropped on `ERROR`). -/
def find_functions_loop (extract : Nat → Except String (List fentry))
    (current : Nat) : List (List fentry) :=
  (List.range current).foldl
    (fun acc i =>
      match extract i with
      | .ok fs => acc ++ [fs]
      | .error _ => acc)
    []

/-- `find_functions` (adiff_parse.c), with the per-choice extraction
(`find_functions_internal` on a fixed buffer) abstracted as `extract`.
Returns `none` for the fatal `exit(-1)` when every choice failed, otherwise
`some (warned, merged)` where `warned` records whether the truncation warning
was printed and `merged` is the `select_best_func_limits` result. -/
def find_functions (number_of_choices : Nat) (number_of_choices_limit : Nat)
    (extract : Nat → Except String (List fentry)) : Option (Bool × List fentry) :=
  let warned := decide (number_of_choices > number_of_choices_limit)
  let current :=
    if number_of_choices > number_of_choices_limit then number_of_choices_limit
    else number_of_choices
  let results := find_functions_loop extract current
  if results.length = 0 then none
  else some (warned, select_best_func_limits results)

/-- Outcome of `main`'s argument handling (adiff.c): either an immediate
process exit with the given code, or proceeding to the analysis with the
flag values `flag_print_all_funcs`, `flag_find_full_function`,
`flag_nested_comments` and the raw `-vs=` argument (if any). -/
inductive MainOutcome where
  | exit (code : Int)
  | proceed (flag_print_all_funcs flag_find_full_function flag_nested_comments : Bool)
      (vs_arg : Option String)
deriving DecidableEq, Repr

/-- The flag loop of `main` (adiff.c, `for (i = 3; i < argc; i++)`):
recognized flags update the globals, `-vs=` is consumed by `sscanf`, and any
other argument is fatal (`exit(-1)`). -/
def parse_flags : List String → Bool → Bool → Bool → Option String → MainOutcome
  | [], pa, ff, nc, vs => MainOutcome.proceed pa ff nc vs
  | a :: rest, pa, ff, nc, vs =>
      if a = "-show_all" then parse_flags rest true ff nc vs
      else if a = "-body_only" then parse_flags rest pa false nc vs
      else if a = "-not_nested" then parse_flags rest pa ff false vs
      else if a.startsWith "-vs=" then parse_flags rest pa ff nc (some a)
      else MainOutcome.exit (-1)

/-- The argument handling of `main` (adiff.c): with fewer than three argv
entries it prints the usage line and does `return 0`; otherwise the defaults
are set and the flag loop runs over `argv[3..]`. -/
def parse_args (argv : List String) : MainOutcome :=
  if argv.length < 3 then MainOutcome.exit 0
  else parse_flags (argv.drop 3) false true true none

/-- One iteration of the two-pass loop body of `compatible_tokens`
(adiff_tokens.c, the checks inside `for (i = 1; i <= 2; i++)`), including the
duplicated check blocks present in the source. -/
def compatible_iteration (c1 c2 : Char) : Bool :=
  (((c1 == '<') || (c1 == '>') || (c1 == '=')) && (c2 == '=')) ||
  (((c1 == '+') || (c1 == '-') || (c1 == '/') || (c1 == '*') ||
    (c1 == '&') || (c1 == '|') || (c1 == '%') || (c1 == '^') ||
    (c1 == '~') || (c1 == '!')) && (c2 == '=')) ||
  (((c1 == '+') || (c1 == '-') || (c1 == '/') || (c1 == '*') ||
    (c1 == '&') || (c1 == '|') || (c1 == '%') || (c1 == '^') ||
    (c1 == '~') || (c1 == '!')) && (c2 == '=')) ||
  (((c1 == '<') || (c1 == '>') || (c1 == '=')) && (c2 == '=')) ||
  ((c1 == '<') && (c2 == '<')) ||
  ((c1 == '>') && (c2 == '>')) ||
  ((c1 == '-') && (c2 == '>')) ||
  ((c1 == '+') && (c2 == '+')) ||
  ((c1 == '-') && (c2 == '-')) ||
  ((c1 == '|') && (c2 == '|')) ||
  ((c1 == '&') && (c2 == '&')) ||
  ((c1 == '*') && (c2 == '/')) ||
  ((c1 == '/') && (c2 == '*'))

/-- `compatible_tokens` (adiff_tokens.c): a lone `#` merges with anything;
otherwise both tokens must be single characters, and the check loop runs once
with `(c1, c2) = (token1[0], token2[0])` and once with the two swapped. -/
def compatible_tokens (token1 token2 : List Char) : Bool :=
  if token1 = ['#'] then true
  else
    match token1, token2 with
    | [c1], [c2] => compatible_iteration c1 c2 || compatible_iteration c2 c1
    | _, _ => false

/-- The multi-character operators the spec says the scanner merges. -/
def claimed_operator_pairs : List (Char × Char) :=
  [('=', '='), ('!', '='), ('<', '='), ('>', '='), ('&', '&'), ('|', '|'),
   ('+', '+'), ('-', '-'), ('-', '>'), ('<', '<'), ('>', '>'),
   ('/', '*'), ('*', '/')]

/-- The ordered pairs accepted by one iteration of the `compatible_tokens`
check loop: any of the thirteen characters `< > = + - / * & | % ^ ~ !`
followed by `=`, plus the fixed operator pairs. -/
def merged_operator_pairs : List (Char × Char) :=
  [('<', '='), ('>', '='), ('=', '='),
   ('+', '='), ('-', '='), ('/', '='), ('*', '='), ('&', '='), ('|', '='),
   ('%', '='), ('^', '='), ('~', '='), ('!', '='),
   ('<', '<'), ('>', '>'), ('-', '>'), ('+', '+'), ('-', '-'),
   ('|', '|'), ('&', '&'), ('*', '/'), ('/', '*')]

/-- The delimiter set of `is_delimiter` (adiff_tokens.c); the backtick and the
two braces are written via `Char.ofNat` (codes 96, 123, 125). -/
def delimiters : List Char :=
  ['!', '@', '#', '$', '%', '^', '&', '*', '(', ')', '-', '+', '=', '|', '\\',
   Char.ofNat 96, '~', '[', ']', Char.ofNat 123, Char.ofNat 125, ';', ':',
   '\'', '\"', '<', '>', ',', '.', '?', '/', ' ', '\t', '\r', '\n']

/-- `is_delimiter` (adiff_tokens.c). -/
def is_delimiter (c : Char) : Bool := delimiters.contains c

/-- `is_space` (adiff_tokens.c). -/
def is_space (c : Char) : Bool :=
  (c == ' ') || (c == '\t') || (c == '\n') || (c == '\r')

/-- `skip_spaces` (adiff_tokens.c): advance over the maximal space run; the
loop stops at the NUL terminator, i.e. at `buffer.length`. -/
def skip_spaces (buffer : List Char) (index : Nat) : Nat :=
  index + ((buffer.drop index).takeWhile is_space).length

/-- The non-delimiter scan of `get_simple_token`: the first position at or
after `index` holding a delimiter, or `buffer.length`. -/
def token_run_end (buffer : List Char) (index : Nat) : Nat :=
  index + ((buffer.drop index).takeWhile (fun c => !is_delimiter c)).length

/-- `get_simple_token` (adiff_tokens.c).  The C parameter `n` is
`strlen(buffer)` at every call site, i.e. `buffer.length` here.  Returns
`(begin, end, token, next index)` or `none` for the `-1` end-of-input
result. -/
def get_simple_token (buffer : List Char) (index : Nat) :
    Option (Nat × Nat × List Char × Nat) :=
  if buffer.length ≤ index then none
  else
    let b := skip_spaces buffer index
    if buffer.length ≤ b then none
    else
      let e := if is_delimiter (charAt buffer b) then b
               else token_run_end buffer (b + 1) - 1
      some (b, e, (buffer.drop b).take (e + 1 - b), skip_spaces buffer (e + 1))

/-- The `allow_space_in_pragma_name` constant from adiff.h (defined `1`). -/
def allow_space_in_pragma_name : Bool := true

/-- `get_token` (adiff_tokens.c): fetch one simple token, look ahead for a
second one, and merge the two when they are immediately adjacent (or the
first is a lone `#` under `allow_space_in_pragma_name`) and
`compatible_tokens` accepts them. -/
def get_token (buffer : List Char) (index : Nat) :
    Option (Nat × Nat × List Char × Nat) :=
  match get_simple_token buffer index with
  | none => none
  | some (begin1, end1, token1, index1) =>
      match get_simple_token buffer index1 with
      | none => some (begin1, end1, token1, index1)
      | some (_, end2, token2, index2) =>
          let special_case_flag := allow_space_in_pragma_name && (token1 == ['#'])
          if index + token1.length ≠ index1 ∧ special_case_flag = false then
            some (begin1, end1, token1, index1)
          else if compatible_tokens token1 token2 then
            some (begin1, end2, token1 ++ token2, index2)
          else
            some (begin1, end1, token1, index1)

/-- The `strchr(buffer + index, symbol)` step of `match_symbol`, as an offset:
the first position `p ≥ index` with `buffer[p] = symbol`, if any. -/
def strchrIdx (buffer : List Char) (index : Nat) (symbol : Char) : Option Nat :=
  let k := ((buffer.drop index).takeWhile (fun x => x != symbol)).length
  if index + k < buffer.length then some (index + k) else none

/-- The backslash-parity scan of `match_symbol` (adiff_matching.c): walk the
bytes of `buffer[begin ..= end_]` left to right; a backslash toggles the flag,
anything else resets it to 0. -/
def escflag (buffer : List Char) (begin end_ : Nat) : Bool :=
  ((buffer.drop begin).take (end_ + 1 - begin)).foldl
    (fun flag c => if c == '\\' then !flag else false) false

/-- The `do { strchr ... } while(1)` loop of `match_symbol` (adiff_matching.c).
`fuel` strictly exceeds the number of iterations at every call from
`match_symbol` (each iteration advances `index` by at least one and stops at
`buffer.length`); the fuel-exhaustion branch is unreachable there. -/
def match_symbol_loop (buffer : List Char) (symbol : Char) (index_orig : Nat) :
    Nat → Nat → Nat
  | 0, _ => buffer.length
  | fuel + 1, index =>
      match strchrIdx buffer index symbol with
      | none => buffer.length
      | some p =>
          if charAt buffer (p - 1) == '\\' then
            if escflag buffer (index_orig + 1) (p - 1) then
              match_symbol_loop buffer symbol index_orig fuel (p + 1)
            else p + 1
          else p + 1

/-- `match_symbol` (adiff_matching.c): `none` models the `-1` return when the
byte at `index` is not the opening `symbol`; otherwise the scan result (one
past the closing quote, or `buffer.length` when the literal is
unterminated). -/
def match_symbol (buffer : List Char) (index : Nat) (symbol : Char) : Option Nat :=
  if charAt buffer index == symbol then
    some (match_symbol_loop buffer symbol index (buffer.length + 1) (index + 1))
  else none

/-- The number of consecutive backslashes immediately before position `p`. -/
def trailing_backslashes (buffer : List Char) (p : Nat) : Nat :=
  ((buffer.take p).reverse.takeWhile (fun c => c == '\\')).length

/-- Modelled from the spec (§4.2): position `p` closes a literal of quote
character `symbol` iff it holds the matching quote and the count of
consecutive backslashes immediately preceding it is even. -/
def valid_close (buffer : List Char) (symbol : Char) (p : Nat) : Bool :=
  (charAt buffer p == symbol) && (trailing_backslashes buffer p % 2 == 0)

/-- Modelled from the spec (§4.2): scan positions `p, p+1, ...` for the first
valid closing quote; `rem` is the exact number of remaining positions
(`buffer.length - p` at every call). -/
def first_valid_close_from (buffer : List Char) (symbol : Char) :
    Nat → Nat → Option Nat
  | 0, _ => none
  | rem + 1, p =>
      if valid_close buffer symbol p then some p
      else first_valid_close_from buffer symbol rem (p + 1)

/-- Modelled from the spec (§4.2): the first position `p ≥ idx` that validly
closes a literal of quote character `symbol`, or `none`. -/
def first_valid_close (buffer : List Char) (symbol : Char) (idx : Nat) : Option Nat :=
  first_valid_close_from buffer symbol (buffer.length - idx) idx

/-- The `strstr(buffer + index, "*\x2f")` step of `matchComment`, as an
offset: the first position `p ≥ index` where `*` is immediately followed by
`/`. -/
def strstrIdx (buffer : List Char) (index : Nat) : Option Nat :=
  let k := (((buffer.drop index).zip (buffer.drop (index + 1))).takeWhile
    (fun pc => !(pc.1 == '*' && pc.2 == '/'))).length
  if index + k + 1 < buffer.length then some (index + k) else none

/-- `matchComment` (adiff_matching.c): the non-nested comment scan; `none`
models the `-1` returns, otherwise the offset one past the terminating `*\x2f`
(or `buffer.length` when no terminator exists). -/
def matchComment (buffer : List Char) (index : Nat) : Option Nat :=
  if charAt buffer index != '/' then none
  else if charAt buffer (index + 1) != '*' then none
  else
    match strstrIdx buffer (index + 2) with
    | some p => some (p + 2)
    | none => some buffer.length

/-- The token loop of `match_bracket` (adiff_parse.c).  `none` models the
`ERROR` returns (token exhaustion, or first token not the opening one);
`some b` is the begin offset of the token that zeroed the nesting counter.
`fuel` strictly exceeds the number of iterations at every call from
`match_bracket` (each `get_token` advances the index by at least one). -/
def match_bracket_loop (buffer : List Char) (opening closing : List Char) :
    Nat → Nat → Int → Bool → Option Nat
  | 0, _, _, _ => none
  | fuel + 1, index, counter, flag =>
      match get_token buffer index with
      | none => none
      | some (b, _, token, idx) =>
          if flag = false ∧ token ≠ opening then none
          else
            let counter := if token = opening then counter + 1 else counter
            let counter := if token = closing then counter - 1 else counter
            if counter = 0 then some b
            else match_bracket_loop buffer opening closing fuel idx counter true

/-- `match_bracket` (adiff_parse.c); the C parameter `n` is `strlen(buffer)`
at every call site. -/
def match_bracket (buffer : List Char) (index : Nat) (opening closing : List Char) :
    Option Nat :=
  match_bracket_loop buffer opening closing (buffer.length + 1) index 0 false

/-- The scan loop of `find_comments_and_literals` (adiff_matching.c).
`Except.error ()` models the fatal `exit(-1)` (reachable only through the
nested-comment `match_bracket` failure); the `assert(end > 0)` cases are
provably satisfied at every reachable call and their violation is also mapped
to `Except.error ()`.  `fuel` strictly exceeds the number of iterations at
every call from `find_comments_and_literals`. -/
def fcl_loop (flag_nested_comments : Bool) (buffer : List Char)
    (add_literals add_comments add_backslashes : Bool) :
    Nat → Nat → List item → Except Unit (List item)
  | 0, _, _ => Except.error ()
  | fuel + 1, i, Items =>
      if i < buffer.length then
        let c := buffer.getD i ' '
        if c == '\"' then
          match match_symbol buffer i '\"' with
          | some e =>
              fcl_loop flag_nested_comments buffer add_literals add_comments
                add_backslashes fuel e
                (Items ++ if add_literals then [⟨i, e - 1, .STRING⟩] else [])
          | none => Except.error ()
        else if c == '\'' then
          match match_symbol buffer i '\'' with
          | some e =>
              fcl_loop flag_nested_comments buffer add_literals add_comments
                add_backslashes fuel e
                (Items ++ if add_literals then [⟨i, e - 1, .LITERAL⟩] else [])
          | none => Except.error ()
        else if c == '/' then
          if charAt buffer (i + 1) == '*' then
            if flag_nested_comments then
              match match_bracket buffer i ['/', '*'] ['*', '/'] with
              | some e =>
                  fcl_loop flag_nested_comments buffer add_literals add_comments
                    add_backslashes fuel (e + 2)
                    (Items ++ if add_comments then [⟨i, e + 1, .COMMENT⟩] else [])
              | none => Except.error ()
            else
              match matchComment buffer i with
              | some e =>
                  fcl_loop flag_nested_comments buffer add_literals add_comments
                    add_backslashes fuel e
                    (Items ++ if add_comments then [⟨i, e - 1, .COMMENT⟩] else [])
              | none => Except.error ()
          else
            fcl_loop flag_nested_comments buffer add_literals add_comments
              add_backslashes fuel (i + 1) Items
        else if c == '\\' then
          fcl_loop flag_nested_comments buffer add_literals add_comments
            add_backslashes fuel (i + 2)
            (Items ++ if add_backslashes then [⟨i, i + 1, .ESCSEQ⟩] else [])
        else
          fcl_loop flag_nested_comments buffer add_literals add_comments
            add_backslashes fuel (i + 1) Items
      else Except.ok Items

/-- `find_comments_and_literals` (adiff_matching.c), with the
`flag_nested_comments` global passed explicitly. -/
def find_comments_and_literals (flag_nested_comments : Bool) (buffer : List Char)
    (add_literals add_comments add_backslashes : Bool) : Except Unit (List item) :=
  fcl_loop flag_nested_comments buffer add_literals add_comments add_backslashes
    (buffer.length + 1) 0 []

/-- The whitespace set skipped by the lock-step walk of `diff`
(adiff_diff.c): space, tab, newline. -/
def is_diff_space (c : Char) : Bool := (c == ' ') || (c == '\t') || (c == '\n')

/-- The `while (buffer[i] is space/tab/newline) i++` skip of `diff`; stops at
the NUL terminator, i.e. at `buffer.length`. -/
def skip_ws (buffer : List Char) (i : Nat) : Nat :=
  i + ((buffer.drop i).takeWhile is_diff_space).length

/-- The lock-step comparison loop of `diff` (adiff_diff.c, lines 119-140):
`none` means no divergence was found (the `flag = 0` path), `some (i, j)` is
the reported divergence position pair (relative to the extracted bodies).
`fuel` strictly exceeds the number of iterations at every call from
`diff_walk`. -/
def diff_walk_loop (b1 b2 : List Char) : Nat → Nat → Nat → Option (Nat × Nat)
  | 0, _, _ => none
  | fuel + 1, i, j =>
      if i < b1.length ∧ j < b2.length then
        let i1 := skip_ws b1 i
        let j1 := skip_ws b2 j
        if charAt b1 i1 == charAt b2 j1 then diff_walk_loop b1 b2 fuel (i1 + 1) (j1 + 1)
        else some (i1, j1)
      else if i < b1.length ∨ j < b2.length then some (i, j) else none

/-- The whole lock-step phase of `diff` on the two extracted (already blanked)
function bodies. -/
def diff_walk (b1 b2 : List Char) : Option (Nat × Nat) :=
  diff_walk_loop b1 b2 (b1.length + 1) 0 0

/-- The bytes of a body that the lock-step walk actually compares: everything
except space/tab/newline runs. -/
def non_space_content (buffer : List Char) : List Char :=
  buffer.filter fun c => !is_diff_space c

/-- Whether a body ends in a space/tab/newline byte. -/
def ends_in_space (buffer : List Char) : Bool :=
  (buffer.getLast?.map is_diff_space).getD false

/-- `comp_type` from adiff.h (the unused `TERM` alternative is omitted). -/
inductive comp_type where
  | AND | OR
deriving DecidableEq, Repr

/-- `element` from adiff.h: a directive-tree node owning its ordered children;
only the fields read by branch selection are modelled. -/
inductive element where
  | mk (type : comp_type) (text_begin text_end : Int) (list : List element)

def element.type : element → comp_type
  | .mk t _ _ _ => t

def element.text_begin : element → Int
  | .mk _ tb _ _ => tb

def element.text_end : element → Int
  | .mk _ _ te _ => te

def element.list : element → List element
  | .mk _ _ _ l => l

/-- `depth_width` from adiff.h (both fields are counts, hence `Nat`). -/
structure depth_width where
  depth : Nat
  width : Nat
deriving DecidableEq, Repr

/-- `compute_depth_width` (adiff_pragmas.c): fold the children's `MAX`es, then
add one level / widen for an `OR` node. -/
def compute_depth_width : element → depth_width
  | .mk ty _ _ list =>
      let child_dws := list.attach.map fun c => compute_depth_width c.1
      let max_dw := child_dws.foldl
        (fun acc dw => ⟨max acc.depth dw.depth, max acc.width dw.width⟩)
        (⟨0, 0⟩ : depth_width)
      match ty with
      | .OR => ⟨max_dw.depth + 1, max max_dw.width list.length⟩
      | .AND => max_dw
termination_by t => sizeOf t
decreasing_by
  have h := List.sizeOf_lt_of_mem c.2
  simp only [element.mk.sizeOf_spec]
  omega

/-- The `powers` array of `create_selectors` (adiff_pragmas.c):
`powers[i] = width ^ (n - i)`. -/
def pragma_powers (width : Int) (n i : Nat) : Int := width ^ (n - i)

/-- `create_selectors` (adiff_pragmas.c): mixed-radix decomposition of one
choice index into one digit per depth level, using C truncated division and
remainder (`Int.tdiv` / `Int.tmod`). -/
def create_selectors (dw : depth_width) (selector : Int) : List Int :=
  (List.range dw.depth).map fun i =>
    if i < dw.depth - 1 then
      (selector.tdiv (pragma_powers dw.width dw.depth (i + 1))).tmod dw.width
    else selector.tmod dw.width

/-- `select_branch_internal` (adiff_pragmas.c), returning the list of
`(text_begin, text_end)` ranges passed to `add_item` for blanking: at an `OR`
node the selector digit for this depth is clamped to the last branch, every
sibling branch's range is recorded, and the walk recurses into the chosen
branch at `depth + 1`; an `AND` node recurses into all children at the same
depth. -/
def select_branch_internal (Pragmas : element) (selectors : List Int) (depth : Nat) :
    List (Int × Int) :=
  match Pragmas with
  | .mk ty _ _ list =>
    match ty with
    | .OR =>
        let n : Int := list.length
        let selector0 := selectors.getD depth 0
        let selector := if n ≤ selector0 then n - 1 else selector0
        let k := selector.toNat
        ((list.take k ++ list.drop (k + 1)).map fun c => (c.text_begin, c.text_end)) ++
          (match h : list[k]? with
           | some chosen => select_branch_internal chosen selectors (depth + 1)
           | none => [])
    | .AND =>
        (list.attach.map fun c => select_branch_internal c.1 selectors depth).flatten
termination_by sizeOf Pragmas
decreasing_by
  · have hm := List.getElem?_mem h
    have := List.sizeOf_lt_of_mem hm
    simp only [element.mk.sizeOf_spec]
    omega
  · have := List.sizeOf_lt_of_mem c.2
    simp only [element.mk.sizeOf_spec]
    omega

/-- The mirror of `select_branch_internal` that records, for every `OR` node
the walk reaches, the pair (branch count, selector digit actually used after
clamping). -/
def select_branch_visits (Pragmas : element) (selectors : List Int) (depth : Nat) :
    List (Int × Int) :=
  match Pragmas with
  | .mk ty _ _ list =>
    match ty with
    | .OR =>
        let n : Int := list.length
        let selector0 := selectors.getD depth 0
        let selector := if n ≤ selector0 then n - 1 else selector0
        (n, selector) ::
          (match h : list[selector.toNat]? with
           | some chosen => select_branch_visits chosen selectors (depth + 1)
           | none => [])
    | .AND =>
        (list.attach.map fun c => select_branch_visits c.1 selectors depth).flatten
termination_by sizeOf Pragmas
decreasing_by
  · have hm := List.getElem?_mem h
    have := List.sizeOf_lt_of_mem hm
    simp only [element.mk.sizeOf_spec]
    omega
  · have := List.sizeOf_lt_of_mem c.2
    simp only [element.mk.sizeOf_spec]
    omega

/-- Every `OR` node of the tree has at least one branch. -/
def or_nonempty : element → Bool
  | .mk ty _ _ list =>
      (match ty with
       | .OR => !list.isEmpty
       | .AND => true) &&
      list.attach.all fun c => or_nonempty c.1
termination_by t => sizeOf t
decreasing_by
  have h := List.sizeOf_lt_of_mem c.2
  simp only [element.mk.sizeOf_spec]
  omega

/-- First-match lookup of a function entry by name (the inner `strcmp` scans
of `select_best_func_limits` and `diff_functions` search this way). -/
def flookup : List fentry → String → Option fentry
  | [], _ => none
  | d :: rest, n => if d.fname = n then some d else flookup rest n

/-- The effect of `merge_entry` on the (unique) entry of one name: first
occurrence is installed as-is, later occurrences fold in with `MIN`/`MAX`. -/
def merge_acc : Option fentry → fentry → Option fentry
  | none, x => some x
  | some d, x => some ⟨d.fname, min d.fbegin x.fbegin, max d.fend x.fend⟩

/-- Pairwise-distinct function names. -/
def distinct_names (l : List fentry) : Prop :=
  l.Pairwise fun a b => a.fname ≠ b.fname

/-- A byte that the `find_comments_and_literals` switch sends to a
one-byte-step branch: not a quote, not a slash, not a backslash, and (to keep
a following slash from forming a terminator) not a star. -/
def fcl_plain (c : Char) : Bool :=
  !((c == '\"') || (c == '\'') || (c == '/') || (c == '\\') || (c == '*'))

/-- No `*` immediately followed by `/` occurs anywhere in `tail` (reads past
the end behave like the NUL terminator). -/
def no_comment_terminator (tail : List Char) : Bool :=
  (List.range tail.length).all fun k =>
    !(tail.getD k ' ' == '*' && tail.getD (k + 1) ' ' == '/')

/-! ### Generic list facts used throughout -/

theorem length_takeWhile_le' (p : α → Bool) (l : List α) :
    (l.takeWhile p).length ≤ l.length := by
  induction l with
  | nil => simp
  | cons a l ih =>
      rw [List.takeWhile_cons]
      split
      · simpa using ih
      · simp

theorem takeWhile_getElem? (p : α → Bool) (l : List α) (k : Nat)
    (h : k < (l.takeWhile p).length) :
    ∃ a, l[k]? = some a ∧ p a = true := by
  induction l generalizing k with
  | nil => simp at h
  | cons a l ih =>
      rw [List.takeWhile_cons] at h
      by_cases hp : p a
      · rw [if_pos hp] at h
        match k with
        | 0 => exact ⟨a, by simp, hp⟩
        | k + 1 =>
            obtain ⟨b, hb, hpb⟩ := ih k (by simpa using h)
            exact ⟨b, by simpa using hb, hpb⟩
      · rw [if_neg hp] at h
        simp at h
  
theorem takeWhile_stop (p : α → Bool) (l : List α)
    (h : (l.takeWhile p).length < l.length) :
    ∃ a, l[(l.takeWhile p).length]? = some a ∧ p a = false := by
  induction l with
  | nil => simp at h
  | cons a l ih =>
      rw [List.takeWhile_cons]
      by_cases hp : p a
      · rw [if_pos hp]
        rw [List.takeWhile_cons, if_pos hp] at h
        simp only [List.length_cons]
        obtain ⟨b, hb, hpb⟩ := ih (by simpa using h)
        exact ⟨b, by simpa using hb, hpb⟩
      · rw [if_neg hp]
        exact ⟨a, by simp, by simpa using hp⟩

/-! ### C8: `clear` blanks exactly the item spans -/

theorem blankRange_length (buffer : List Char) (b c : Nat) :
    (blankRange buffer b c).length = buffer.length := by
  induction c with
  | zero => rfl
  | succ n ih =>
      unfold blankRange
      rw [List.range_succ, List.foldl_append, List.foldl_cons, List.foldl_nil,
        List.length_set]
      exact ih

theorem blankRange_getElem? (buffer : List Char) (b c j : Nat) :
    (blankRange buffer b c)[j]? =
      if b ≤ j ∧ j < b + c then
        (if j < buffer.length then some ' ' else none)
      else buffer[j]? := by
  induction c with
  | zero =>
      rw [if_neg (by omega)]
      rfl
  | succ n ih =>
      unfold blankRange
      rw [List.range_succ, List.foldl_append, List.foldl_cons, List.foldl_nil]
      have hbr : (List.range n).foldl (fun bf k => bf.set (b + k) ' ') buffer =
          blankRange buffer b n := rfl
      rw [hbr, List.getElem?_set, blankRange_length]
      by_cases hj : b + n = j
      · subst hj
        rw [if_pos rfl, if_pos (by omega : b ≤ b + n ∧ b + n < b + (n + 1))]
      · rw [if_neg hj, ih]
        by_cases hin : b ≤ j ∧ j < b + n
        · rw [if_pos hin, if_pos (by omega : b ≤ j ∧ j < b + (n + 1))]
        · have h2 : ¬(b ≤ j ∧ j < b + (n + 1)) := by
            rintro ⟨hc1, hc2⟩
            exact hin ⟨hc1, by omega⟩
          rw [if_neg hin, if_neg h2]

theorem clear_cons (buffer : List Char) (it : item) (Items : List item) :
    clear buffer (it :: Items) =
      clear (blankRange buffer it.begin (it.end_ + 1 - it.begin)) Items := rfl

theorem clear_length (buffer : List Char) (Items : List item) :
    (clear buffer Items).length = buffer.length := by
  induction Items generalizing buffer with
  | nil => rfl
  | cons it Items ih =>
      rw [clear_cons, ih, blankRange_length]

theorem clear_getElem? (buffer : List Char) (Items : List item) (j : Nat)
    (hj : j < buffer.length) :
    (clear buffer Items)[j]? =
      if ∃ it ∈ Items, it.begin ≤ j ∧ j ≤ it.end_ then some ' ' else buffer[j]? := by
  induction Items generalizing buffer with
  | nil => simp [clear]
  | cons it Items ih =>
      rw [clear_cons, ih _ (by rw [blankRange_length]; exact hj)]
      by_cases hrest : ∃ x ∈ Items, x.begin ≤ j ∧ j ≤ x.end_
      · rw [if_pos hrest]
        obtain ⟨x, hx, hxj⟩ := hrest
        rw [if_pos ⟨x, List.mem_cons_of_mem _ hx, hxj⟩]
      · rw [if_neg hrest, blankRange_getElem? buffer it.begin (it.end_ + 1 - it.begin) j]
        by_cases hit : it.begin ≤ j ∧ j ≤ it.end_
        · rw [if_pos (by omega : it.begin ≤ j ∧ j < it.begin + (it.end_ + 1 - it.begin)),
            if_pos hj, if_pos ⟨it, List.mem_cons_self it Items, hit⟩]
        · have h2 : ¬(it.begin ≤ j ∧ j < it.begin + (it.end_ + 1 - it.begin)) := by
            rintro ⟨hc1, hc2⟩
            exact hit ⟨hc1, by omega⟩
          have h3 : ¬∃ x ∈ it :: Items, x.begin ≤ j ∧ j ≤ x.end_ := by
            rintro ⟨x, hx, hxj⟩
            rcases List.mem_cons.1 hx with rfl | hx2
            · exact hit hxj
            · exact hrest ⟨x, hx2, hxj⟩
          rw [if_neg h2, if_neg h3]

/-- C8: blanking a buffer over a collection of item spans keeps the length,
sets every byte inside some span to a space, and leaves every byte outside
all spans untouched. -/
theorem clear_frame (buffer : List Char) (Items : List item) :
    (clear buffer Items).length = buffer.length ∧
    (∀ j, j < buffer.length → (∀ it ∈ Items, ¬ (it.begin ≤ j ∧ j ≤ it.end_)) →
      (clear buffer Items)[j]? = buffer[j]?) ∧
    (∀ j, j < buffer.length → (∃ it ∈ Items, it.begin ≤ j ∧ j ≤ it.end_) →
      (clear buffer Items)[j]? = some ' ') := by
  refine ⟨clear_length buffer Items, ?_, ?_⟩
  · intro j hj hout
    rw [clear_getElem? buffer Items j hj,
      if_neg (by rintro ⟨x, hx, hxj⟩; exact hout x hx hxj)]
  · intro j hj hin
    rw [clear_getElem? buffer Items j hj, if_pos hin]

/-- Witness for C8 at a concrete buffer and span list. -/
theorem clear_frame_witness :
    (clear "abcde".data [⟨1, 2, .COMMENT⟩]).length = "abcde".data.length ∧
    (clear "abcde".data [⟨1, 2, .COMMENT⟩])[0]? = "abcde".data[0]? ∧
    (clear "abcde".data [⟨1, 2, .COMMENT⟩])[2]? = some ' ' :=
  ⟨(clear_frame "abcde".data [⟨1, 2, .COMMENT⟩]).1,
   (clear_frame "abcde".data [⟨1, 2, .COMMENT⟩]).2.1 0 (by decide) (by decide),
   (clear_frame "abcde".data [⟨1, 2, .COMMENT⟩]).2.2 2 (by decide) (by decide)⟩

/-! ### C4: exit status on wrong argument count -/

/-- C4 counterexample: invoked with only two argv entries (fewer than the two
required input file names plus the program name), `main` prints the usage
line and returns 0 — not a non-zero status.  The second conjunct records that
0 is the only exit code this invocation can produce. -/
theorem main_wrong_argc_counterexample :
    parse_args ["adiff", "input1.c"] = MainOutcome.exit 0 ∧
    ∀ code : Int, parse_args ["adiff", "input1.c"] = MainOutcome.exit code → code = 0 := by
  refine ⟨by decide, ?_⟩
  intro code h
  have h0 : parse_args ["adiff", "input1.c"] = MainOutcome.exit 0 := by decide
  rw [h0] at h
  exact ((MainOutcome.exit.injEq _ _).mp h).symm

/-- C4 amended: on wrong argument count (`argc < 3`) the program exits with
status 0 after printing the usage line; a non-zero exit (`exit(-1)`) happens
for an unrecognized flag, not for a wrong argument count. -/
theorem main_wrong_argc_exit_code (argv : List String) (h : argv.length < 3) :
    parse_args argv = MainOutcome.exit 0 := by
  unfold parse_args
  rw [if_pos h]

/-- Witness for the amended C4 theorem. -/
theorem main_wrong_argc_exit_code_witness :
    parse_args ["adiff"] = MainOutcome.exit 0 :=
  main_wrong_argc_exit_code ["adiff"] (by decide)

/-! ### C5: which adjacent token pairs the scanner merges -/

theorem compatible_iteration_iff (c1 c2 : Char) :
    compatible_iteration c1 c2 = true ↔ (c1, c2) ∈ merged_operator_pairs := by
  constructor
  · intro h
    simp only [compatible_iteration, Bool.or_eq_true, Bool.and_eq_true, beq_iff_eq] at h
    rcases h with ((((((((((((⟨((rfl | rfl) | rfl), rfl⟩ | ⟨(((((((((rfl | rfl) | rfl) | rfl) | rfl) | rfl) | rfl) | rfl) | rfl) | rfl), rfl⟩) | ⟨(((((((((rfl | rfl) | rfl) | rfl) | rfl) | rfl) | rfl) | rfl) | rfl) | rfl), rfl⟩) | ⟨((rfl | rfl) | rfl), rfl⟩) | ⟨rfl, rfl⟩) | ⟨rfl, rfl⟩) | ⟨rfl, rfl⟩) | ⟨rfl, rfl⟩) | ⟨rfl, rfl⟩) | ⟨rfl, rfl⟩) | ⟨rfl, rfl⟩) | ⟨rfl, rfl⟩) | ⟨rfl, rfl⟩) <;> decide
  · intro h
    have hall : ∀ p ∈ merged_operator_pairs, compatible_iteration p.1 p.2 = true := by
      decide
    exact hall (c1, c2) h

/-- C5 counterexample: the adjacent single-character tokens `+` and `=` (the
first not a lone `#`) are merged by `compatible_tokens`, yet their
concatenation `+=` is not in the spec's operator list. -/
theorem compatible_tokens_counterexample :
    compatible_tokens ['+'] ['='] = true ∧ ('+', '=') ∉ claimed_operator_pairs := by
  decide

/-- C5 amended: for two adjacent single-character basic tokens (the first not
a lone `#`), the scanner merges them iff the ordered pair or its reversal is
in the extended operator set: the spec's thirteen operators plus the
compound-assignment pairs `+= -= /= *= &= |= %= ^= ~=` (the reversal closure
adds pairs such as `=<` and `>-`). -/
theorem compatible_tokens_characterization (c1 c2 : Char) (h : c1 ≠ '#') :
    compatible_tokens [c1] [c2] = true ↔
      ((c1, c2) ∈ merged_operator_pairs ∨ (c2, c1) ∈ merged_operator_pairs) := by
  have hne : ¬ ([c1] = (['#'] : List Char)) := by simpa using h
  unfold compatible_tokens
  rw [if_neg hne]
  show (compatible_iteration c1 c2 || compatible_iteration c2 c1) = true ↔ _
  simp only [Bool.or_eq_true]
  rw [compatible_iteration_iff, compatible_iteration_iff]

/-- Witness for the amended C5 theorem. -/
theorem compatible_tokens_characterization_witness :
    compatible_tokens ['<'] ['='] = true :=
  (compatible_tokens_characterization '<' '=' (by decide)).mpr (by decide)

/-! ### C2 and C10: the cross-choice merge -/

theorem flookup_cons (d : fentry) (rest : List fentry) (n : String) :
    flookup (d :: rest) n = if d.fname = n then some d else flookup rest n := rfl

theorem merge_entry_cons (d : fentry) (rest : List fentry) (x : fentry) :
    merge_entry (d :: rest) x =
      if d.fname = x.fname then
        (⟨d.fname, min d.fbegin x.fbegin, max d.fend x.fend⟩ : fentry) :: rest
      else d :: merge_entry rest x := rfl

theorem flookup_merge_entry (dest : List fentry) (x : fentry) (n : String) :
    flookup (merge_entry dest x) n =
      if x.fname = n then merge_acc (flookup dest n) x else flookup dest n := by
  induction dest with
  | nil =>
      show flookup [x] n = _
      unfold flookup
      split <;> rfl
  | cons d rest ih =>
      rw [merge_entry_cons, flookup_cons]
      by_cases hdx : d.fname = x.fname
      · by_cases hdn : d.fname = n
        · have hxn : x.fname = n := by rw [← hdx]; exact hdn
          simp only [if_pos hdx, if_pos hdn, if_pos hxn, flookup_cons]
          rfl
        · have hxn : ¬ x.fname = n := by rw [← hdx]; exact hdn
          simp only [if_pos hdx, if_neg hdn, if_neg hxn, flookup_cons]
      · by_cases hdn : d.fname = n
        · have hxn : ¬ x.fname = n := fun hc => hdx (by rw [hdn, hc])
          simp only [if_neg hdx, if_pos hdn, if_neg hxn, flookup_cons]
        · simp only [if_neg hdx, if_neg hdn, flookup_cons, ih]

theorem flookup_foldl_merge (xs : List fentry) (dest : List fentry) (n : String) :
    flookup (xs.foldl merge_entry dest) n =
      (xs.filter (fun x => x.fname == n)).foldl merge_acc (flookup dest n) := by
  induction xs generalizing dest with
  | nil => rfl
  | cons x xs ih =>
      rw [List.foldl_cons, ih, List.filter_cons]
      by_cases hx : x.fname = n
      · rw [if_pos (by simpa using hx), List.foldl_cons, flookup_merge_entry, if_pos hx]
      · rw [if_neg (by simpa using hx), flookup_merge_entry, if_neg hx]

theorem select_best_eq_flatten (source : List (List fentry)) :
    select_best_func_limits source = source.flatten.foldl merge_entry [] := by
  unfold select_best_func_limits
  rw [List.foldl_flatten]

theorem merge_entry_names (dest : List fentry) (x y : fentry)
    (hy : y ∈ merge_entry dest x) :
    y.fname = x.fname ∨ y.fname ∈ dest.map fentry.fname := by
  induction dest with
  | nil =>
      have hx : y = x := by simpa [merge_entry] using hy
      left
      rw [hx]
  | cons d rest ih =>
      rw [merge_entry_cons] at hy
      by_cases hdx : d.fname = x.fname
      · rw [if_pos hdx] at hy
        rcases List.mem_cons.1 hy with rfl | h
        · left; exact hdx
        · right
          rw [List.map_cons]
          exact List.mem_cons_of_mem _ (List.mem_map_of_mem fentry.fname h)
      · rw [if_neg hdx] at hy
        rcases List.mem_cons.1 hy with rfl | h
        · right
          rw [List.map_cons]
          exact List.mem_cons_self _ _
        · rcases ih h with h1 | h1
          · left; exact h1
          · right
            rw [List.map_cons]
            exact List.mem_cons_of_mem _ h1

theorem merge_entry_distinct (dest : List fentry) (x : fentry)
    (h : distinct_names dest) : distinct_names (merge_entry dest x) := by
  induction dest with
  | nil => simp [merge_entry, distinct_names]
  | cons d rest ih =>
      unfold distinct_names at h
      rw [List.pairwise_cons] at h
      obtain ⟨hd, hrest⟩ := h
      rw [merge_entry_cons]
      by_cases hdx : d.fname = x.fname
      · rw [if_pos hdx]
        unfold distinct_names
        rw [List.pairwise_cons]
        exact ⟨fun y hy => hd y hy, hrest⟩
      · rw [if_neg hdx]
        unfold distinct_names
        rw [List.pairwise_cons]
        refine ⟨?_, ih hrest⟩
        intro y hy
        rcases merge_entry_names rest x y hy with h1 | h1
        · rw [h1]; exact fun hc => hdx hc
        · obtain ⟨z, hz, hzname⟩ := List.mem_map.1 h1
          intro hc
          exact hd z hz (by rw [hc, ← hzname])

theorem foldl_merge_entry_distinct (xs : List fentry) (dest : List fentry)
    (h : distinct_names dest) : distinct_names (xs.foldl merge_entry dest) := by
  induction xs generalizing dest with
  | nil => exact h
  | cons x xs ih => exact ih _ (merge_entry_distinct dest x h)

theorem select_best_distinct (source : List (List fentry)) :
    distinct_names (select_best_func_limits source) := by
  rw [select_best_eq_flatten]
  exact foldl_merge_entry_distinct _ [] (by simp [distinct_names])

theorem filter_eq_of_flookup (l : List fentry) (n : String) (h : distinct_names l) :
    l.filter (fun x => x.fname == n) =
      (match flookup l n with
       | some d => [d]
       | none => []) := by
  induction l with
  | nil => rfl
  | cons d rest ih =>
      unfold distinct_names at h
      rw [List.pairwise_cons] at h
      obtain ⟨hd, hrest⟩ := h
      rw [List.filter_cons, flookup_cons]
      by_cases hdn : d.fname = n
      · rw [if_pos (by simpa using hdn), if_pos hdn]
        have hnone : rest.filter (fun x => x.fname == n) = [] := by
          rw [List.filter_eq_nil_iff]
          intro y hy
          simp only [beq_iff_eq]
          intro hc
          exact hd y hy (by rw [hdn, hc])
        rw [hnone]
      · rw [if_neg (by simpa using hdn), if_neg hdn, ih hrest]

theorem foldl_merge_acc_some (occs : List fentry) (d0 : fentry) :
    ∃ d, occs.foldl merge_acc (some d0) = some d := by
  induction occs generalizing d0 with
  | nil => exact ⟨d0, rfl⟩
  | cons x xs ih => exact ih _

theorem foldl_merge_acc_spec (occs : List fentry) (d0 d : fentry)
    (h : occs.foldl merge_acc (some d0) = some d) :
    d.fname = d0.fname ∧
    (d.fbegin ≤ d0.fbegin ∧ ∀ x ∈ occs, d.fbegin ≤ x.fbegin) ∧
    (d.fbegin = d0.fbegin ∨ ∃ x ∈ occs, d.fbegin = x.fbegin) ∧
    (d0.fend ≤ d.fend ∧ ∀ x ∈ occs, x.fend ≤ d.fend) ∧
    (d.fend = d0.fend ∨ ∃ x ∈ occs, d.fend = x.fend) := by
  induction occs generalizing d0 with
  | nil =>
      simp only [List.foldl_nil, Option.some.injEq] at h
      subst h
      simp
  | cons x xs ih =>
      rw [List.foldl_cons] at h
      obtain ⟨h1, ⟨h2a, h2b⟩, h3, ⟨h4a, h4b⟩, h5⟩ :=
        ih ⟨d0.fname, min d0.fbegin x.fbegin, max d0.fend x.fend⟩ h
      refine ⟨h1, ⟨?_, ?_⟩, ?_, ⟨?_, ?_⟩, ?_⟩
      · exact le_trans h2a (min_le_left _ _)
      · intro y hy
        rcases List.mem_cons.1 hy with rfl | hy2
        · exact le_trans h2a (min_le_right _ _)
        · exact h2b y hy2
      · rcases h3 with h3 | ⟨z, hz, hzb⟩
        · rcases le_total d0.fbegin x.fbegin with hmin | hmin
          · left; rw [h3]; simp [min_eq_left hmin]
          · right; exact ⟨x, List.mem_cons_self x xs, by rw [h3]; simp [min_eq_right hmin]⟩
        · right; exact ⟨z, List.mem_cons_of_mem _ hz, hzb⟩
      · exact le_trans (le_max_left _ _) h4a
      · intro y hy
        rcases List.mem_cons.1 hy with rfl | hy2
        · exact le_trans (le_max_right _ _) h4a
        · exact h4b y hy2
      · rcases h5 with h5 | ⟨z, hz, hzb⟩
        · rcases le_total d0.fend x.fend with hmax | hmax
          · right; exact ⟨x, List.mem_cons_self x xs, by rw [h5]; simp [max_eq_right hmax]⟩
          · left; rw [h5]; simp [max_eq_left hmax]
        · right; exact ⟨z, List.mem_cons_of_mem _ hz, hzb⟩

/-- C2: every function name occurring in the per-choice function sets has
exactly one entry in the cross-choice merge result; its begin is the minimum
of all begins recorded for that name (a lower bound that is attained) and its
end is the maximum of all ends; and if every per-choice entry satisfies
begin ≤ end, so does the merged entry. -/
theorem select_best_func_limits_min_max (source : List (List fentry)) (n : String)
    (hocc : source.flatten.filter (fun x => x.fname == n) ≠ []) :
    ∃ d, (select_best_func_limits source).filter (fun x => x.fname == n) = [d] ∧
      d.fname = n ∧
      (∀ x ∈ source.flatten, x.fname = n → d.fbegin ≤ x.fbegin ∧ x.fend ≤ d.fend) ∧
      (∃ x ∈ source.flatten, x.fname = n ∧ d.fbegin = x.fbegin) ∧
      (∃ x ∈ source.flatten, x.fname = n ∧ d.fend = x.fend) ∧
      ((∀ x ∈ source.flatten, x.fbegin ≤ x.fend) → d.fbegin ≤ d.fend) := by
  obtain ⟨o, os, hos⟩ := List.exists_cons_of_ne_nil hocc
  have hmem1 : ∀ x ∈ o :: os, x ∈ source.flatten ∧ x.fname = n := by
    intro x hx
    have hx2 : x ∈ source.flatten.filter (fun x => x.fname == n) := by
      rw [hos]; exact hx
    have hx3 := List.mem_filter.1 hx2
    exact ⟨hx3.1, by simpa using hx3.2⟩
  have hmem2 : ∀ x, x ∈ source.flatten → x.fname = n → x ∈ o :: os := by
    intro x hx hn
    rw [← hos]
    exact List.mem_filter.2 ⟨hx, by simpa using hn⟩
  obtain ⟨d, hd⟩ := foldl_merge_acc_some os o
  have hlook : flookup (select_best_func_limits source) n = some d := by
    rw [select_best_eq_flatten, flookup_foldl_merge, hos, List.foldl_cons]
    have hacc : merge_acc (flookup [] n) o = some o := rfl
    rw [hacc, hd]
  obtain ⟨h1, ⟨h2a, h2b⟩, h3, ⟨h4a, h4b⟩, h5⟩ := foldl_merge_acc_spec os o d hd
  have hdn : d.fname = n := by rw [h1]; exact (hmem1 o (List.mem_cons_self o os)).2
  refine ⟨d, ?_, hdn, ?_, ?_, ?_, ?_⟩
  · rw [filter_eq_of_flookup _ _ (select_best_distinct source), hlook]
  · intro x hx hxn
    rcases List.mem_cons.1 (hmem2 x hx hxn) with rfl | hx2
    · exact ⟨h2a, h4a⟩
    · exact ⟨h2b x hx2, h4b x hx2⟩
  · rcases h3 with h3 | ⟨z, hz, hzb⟩
    · have := hmem1 o (List.mem_cons_self o os)
      exact ⟨o, this.1, this.2, h3⟩
    · have := hmem1 z (List.mem_cons_of_mem _ hz)
      exact ⟨z, this.1, this.2, hzb⟩
  · rcases h5 with h5 | ⟨z, hz, hzb⟩
    · have := hmem1 o (List.mem_cons_self o os)
      exact ⟨o, this.1, this.2, h5⟩
    · have := hmem1 z (List.mem_cons_of_mem _ hz)
      exact ⟨z, this.1, this.2, hzb⟩
  · intro hall
    rcases h3 with h3 | ⟨z, hz, hzb⟩
    · have hoend : o.fend ≤ d.fend := h4a
      have := hall o (hmem1 o (List.mem_cons_self o os)).1
      calc d.fbegin = o.fbegin := h3
        _ ≤ o.fend := this
        _ ≤ d.fend := hoend
    · have hzend : z.fend ≤ d.fend := h4b z hz
      have := hall z (hmem1 z (List.mem_cons_of_mem _ hz)).1
      calc d.fbegin = z.fbegin := hzb
        _ ≤ z.fend := this
        _ ≤ d.fend := hzend

/-- Witness for C2 at two concrete per-choice sets both containing `f`. -/
theorem select_best_func_limits_min_max_witness :
    ∃ d, (select_best_func_limits
        [[⟨"f", 5, 10⟩], [⟨"f", 2, 7⟩]]).filter (fun x => x.fname == "f") = [d] ∧
      d.fname = "f" ∧
      (∀ x ∈ ([[⟨"f", 5, 10⟩], [⟨"f", 2, 7⟩]] : List (List fentry)).flatten,
        x.fname = "f" → d.fbegin ≤ x.fbegin ∧ x.fend ≤ d.fend) ∧
      (∃ x ∈ ([[⟨"f", 5, 10⟩], [⟨"f", 2, 7⟩]] : List (List fentry)).flatten,
        x.fname = "f" ∧ d.fbegin = x.fbegin) ∧
      (∃ x ∈ ([[⟨"f", 5, 10⟩], [⟨"f", 2, 7⟩]] : List (List fentry)).flatten,
        x.fname = "f" ∧ d.fend = x.fend) ∧
      ((∀ x ∈ ([[⟨"f", 5, 10⟩], [⟨"f", 2, 7⟩]] : List (List fentry)).flatten,
        x.fbegin ≤ x.fend) → d.fbegin ≤ d.fend) :=
  select_best_func_limits_min_max [[⟨"f", 5, 10⟩], [⟨"f", 2, 7⟩]] "f" (by decide)

/-- C10: the cross-choice merge looks names up and updates them in place, so
its result has pairwise-distinct names and the post-merge duplicate-name
check always returns 0 — the duplicate-name warning can never fire on a
merged set. -/
theorem check_func_duplicates_after_merge (source : List (List fentry)) :
    check_func_duplicates (select_best_func_limits source) = false := by
  have hdist := select_best_distinct source
  unfold distinct_names at hdist
  rw [List.pairwise_iff_getElem] at hdist
  unfold check_func_duplicates
  rw [List.any_eq_false]
  intro i hi
  rw [List.mem_range] at hi
  simp only [Bool.not_eq_true]
  rw [List.any_eq_false]
  intro j hj
  rw [List.mem_range] at hj
  simp only [Bool.and_eq_true, decide_eq_true_eq, beq_iff_eq, not_and]
  intro hij heq
  rw [List.getD_eq_getElem _ _ hi, List.getD_eq_getElem _ _ hj] at heq
  rcases Nat.lt_or_ge i j with hlt | hge
  · exact hdist i j hi hj hlt heq
  · have hlt2 : j < i := lt_of_le_of_ne hge (fun hc => hij hc.symm)
    exact hdist j i hj hi hlt2 heq.symm

/-! ### C9: the enumeration cap of `find_functions` -/

theorem find_functions_loop_acc (extract : Nat → Except String (List fentry))
    (l : List Nat) (acc : List (List fentry)) :
    l.foldl (fun acc i =>
        match extract i with
        | .ok fs => acc ++ [fs]
        | .error _ => acc) acc =
      acc ++ l.filterMap (fun i =>
        match extract i with
        | .ok fs => some fs
        | .error _ => none) := by
  induction l generalizing acc with
  | nil => simp
  | cons i l ih =>
      rw [List.foldl_cons, List.filterMap_cons, ih]
      cases hx : extract i <;> simp

theorem find_functions_loop_eq (extract : Nat → Except String (List fentry))
    (current : Nat) :
    find_functions_loop extract current =
      (List.range current).filterMap (fun i =>
        match extract i with
        | .ok fs => some fs
        | .error _ => none) := by
  unfold find_functions_loop
  rw [find_functions_loop_acc]
  rfl

theorem find_functions_loop_congr (extract extract' : Nat → Except String (List fentry))
    (current : Nat) (hagree : ∀ i, i < current → extract' i = extract i) :
    find_functions_loop extract' current = find_functions_loop extract current := by
  rw [find_functions_loop_eq, find_functions_loop_eq]
  apply List.filterMap_congr
  intro i hi
  rw [hagree i (List.mem_range.1 hi)]

/-- C9: when the choice-space size exceeds the cap, `find_functions` reads the
extractor only at choice indices `0 .. limit-1` (its result is unchanged
under any modification of the extractor at other indices), records that the
truncation warning was printed, and — provided at least one evaluated choice
succeeds — still produces a merged function set instead of aborting. -/
theorem find_functions_cap (number_of_choices limit : Nat)
    (extract extract' : Nat → Except String (List fentry))
    (hbig : number_of_choices > limit)
    (hagree : ∀ i, i < limit → extract' i = extract i)
    (hsucc : ∃ i, i < limit ∧ ∃ fs, extract i = .ok fs) :
    find_functions number_of_choices limit extract' =
      find_functions number_of_choices limit extract ∧
    ∃ merged, find_functions number_of_choices limit extract = some (true, merged) := by
  have hnonempty : (find_functions_loop extract limit).length ≠ 0 := by
    rw [find_functions_loop_eq]
    intro hlen
    obtain ⟨i, hi, fs, hfs⟩ := hsucc
    have hmem : fs ∈ (List.range limit).filterMap (fun i =>
        match extract i with
        | .ok fs => some fs
        | .error _ => none) := by
      rw [List.mem_filterMap]
      exact ⟨i, List.mem_range.2 hi, by rw [hfs]⟩
    rw [List.length_eq_zero.1 hlen] at hmem
    simp at hmem
  constructor
  · simp only [find_functions, if_pos hbig]
    rw [find_functions_loop_congr extract extract' limit hagree]
  · simp only [find_functions, if_pos hbig, decide_eq_true hbig]
    rw [if_neg hnonempty]
    exact ⟨_, rfl⟩

/-- Witness for C9: three choices, cap two, only choice 0 succeeds. -/
theorem find_functions_cap_witness :
    find_functions 3 2 (fun i => if i = 0 then .ok [⟨"f", 0, 5⟩] else .error "e") =
      find_functions 3 2 (fun i => if i = 0 then .ok [⟨"f", 0, 5⟩] else .error "e") ∧
    ∃ merged, find_functions 3 2
        (fun i => if i = 0 then .ok [⟨"f", 0, 5⟩] else .error "e") =
      some (true, merged) :=
  find_functions_cap 3 2 _ _ (by decide) (fun i _ => rfl)
    ⟨0, by decide, [⟨"f", 0, 5⟩], rfl⟩

/-! ### C7: the clamped selector digit at every visited OR node -/

theorem create_selectors_nonneg (dw : depth_width) (choice : Int) (h0 : 0 ≤ choice)
    (d : Nat) : 0 ≤ (create_selectors dw choice).getD d 0 := by
  unfold create_selectors
  rw [List.getD_eq_getElem?_getD, List.getElem?_map]
  by_cases hd : d < dw.depth
  · rw [List.getElem?_range hd]
    simp only [Option.map_some', Option.getD_some]
    split
    · exact Int.tmod_nonneg _ (Int.tdiv_nonneg h0
        (pow_nonneg (Int.natCast_nonneg dw.width) _))
    · exact Int.tmod_nonneg _ h0
  · rw [List.getElem?_eq_none (by simpa [List.length_range] using Nat.le_of_not_lt hd)]
    simp

theorem select_branch_visits_spec (N : Nat) :
    ∀ (t : element), sizeOf t ≤ N → ∀ (selectors : List Int),
      (∀ d, 0 ≤ selectors.getD d 0) → or_nonempty t = true →
      ∀ depth p, p ∈ select_branch_visits t selectors depth → 0 ≤ p.2 ∧ p.2 < p.1 := by
  induction N with
  | zero =>
      intro t ht
      obtain ⟨ty, tb, te, list⟩ := t
      simp only [element.mk.sizeOf_spec] at ht
      omega
  | succ N ih =>
      intro t ht selectors hsel hne depth p hp
      obtain ⟨ty, tb, te, list⟩ := t
      have hne2 := hne
      unfold or_nonempty at hne2
      rw [Bool.and_eq_true, List.all_eq_true] at hne2
      obtain ⟨hty, hall⟩ := hne2
      cases ty
      · -- AND node: the visit comes from some child at the same depth
        unfold select_branch_visits at hp
        rw [List.mem_flatten] at hp
        obtain ⟨l, hl, hpl⟩ := hp
        rw [List.mem_map] at hl
        obtain ⟨c, hcmem, rfl⟩ := hl
        have hc := c.2
        have hsize : sizeOf c.1 ≤ N := by
          have := List.sizeOf_lt_of_mem hc
          simp only [element.mk.sizeOf_spec] at ht
          omega
        exact ih c.1 hsize selectors hsel (hall c (List.mem_attach list c)) depth p hpl
      · -- OR node: either this node's own pair or a visit of the chosen branch
        unfold select_branch_visits at hp
        have hlen : 1 ≤ list.length := by
          cases list with
          | nil => simp at hty
          | cons a l => simp
        rcases List.mem_cons.1 hp with rfl | hp2
        · constructor
          · simp only
            split
            · omega
            · exact hsel depth
          · simp only
            split
            · omega
            · omega
        · rcases hget : list[(if (list.length : Int) ≤ selectors.getD depth 0 then
              (list.length : Int) - 1 else selectors.getD depth 0).toNat]? with _ | chosen
          · rw [hget] at hp2
            simp at hp2
          · rw [hget] at hp2
            have hc := List.getElem?_mem hget
            have hsize : sizeOf chosen ≤ N := by
              have := List.sizeOf_lt_of_mem hc
              simp only [element.mk.sizeOf_spec] at ht
              omega
            exact ih chosen hsize selectors hsel
              (hall ⟨chosen, hc⟩ (List.mem_attach list ⟨chosen, hc⟩)) (depth + 1) p hp2

/-- C7: for a non-negative choice index, at every OR node reached during
branch selection (walking with the selector vector decoded by
`create_selectors` from that node's tree), the selector digit actually used
after clamping is a valid branch index: non-negative and strictly below that
node's branch count — given every OR node in the tree has at least one
branch. -/
theorem select_branch_selector_in_range (t : element) (choice : Int)
    (h0 : 0 ≤ choice) (hne : or_nonempty t = true) :
    ∀ p ∈ select_branch_visits t
        (create_selectors (compute_depth_width t) choice) 0,
      0 ≤ p.2 ∧ p.2 < p.1 := by
  intro p hp
  exact select_branch_visits_spec (sizeOf t) t le_rfl _
    (create_selectors_nonneg (compute_depth_width t) choice h0) hne 0 p hp

/-- Witness for C7 at a two-branch conditional and choice index 1: the only OR
node visited records branch count 2 and used selector digit 1, and 0 ≤ 1 < 2. -/
theorem select_branch_selector_in_range_witness :
    (0 : Int) ≤ 1 ∧
    or_nonempty
      (element.mk .OR 0 10 [element.mk .AND 0 4 [], element.mk .AND 6 10 []]) = true ∧
    ((2 : Int), (1 : Int)) ∈ select_branch_visits
      (element.mk .OR 0 10 [element.mk .AND 0 4 [], element.mk .AND 6 10 []])
      (create_selectors (compute_depth_width
        (element.mk .OR 0 10 [element.mk .AND 0 4 [], element.mk .AND 6 10 []])) 1) 0 ∧
    (0 ≤ ((2 : Int), (1 : Int)).2 ∧
     ((2 : Int), (1 : Int)).2 < ((2 : Int), (1 : Int)).1) := by
  have h1 : or_nonempty (element.mk .AND 0 4 []) = true := by
    unfold or_nonempty
    simp
  have h2 : or_nonempty (element.mk .AND 6 10 []) = true := by
    unfold or_nonempty
    simp
  have hne : or_nonempty
      (element.mk .OR 0 10 [element.mk .AND 0 4 [], element.mk .AND 6 10 []]) = true := by
    unfold or_nonempty
    rw [Bool.and_eq_true, List.all_eq_true]
    refine ⟨by simp, ?_⟩
    rintro ⟨x, hx⟩ _
    simp only [List.mem_cons, List.not_mem_nil, or_false] at hx
    rcases hx with rfl | rfl
    · exact h1
    · exact h2
  have hdw : compute_depth_width
      (element.mk .OR 0 10 [element.mk .AND 0 4 [], element.mk .AND 6 10 []]) =
      ⟨1, 2⟩ := by
    have hq1 : compute_depth_width (element.mk .AND 0 4 []) = ⟨0, 0⟩ := by
      unfold compute_depth_width
      rfl
    have hq2 : compute_depth_width (element.mk .AND 6 10 []) = ⟨0, 0⟩ := by
      unfold compute_depth_width
      rfl
    unfold compute_depth_width
    simp [hq1, hq2]
  have hvis : select_branch_visits
      (element.mk .OR 0 10 [element.mk .AND 0 4 [], element.mk .AND 6 10 []]) [1] 0 =
      [(2, 1)] := by
    have hch : select_branch_visits (element.mk .AND 6 10 []) [1] 1 = [] := by
      unfold select_branch_visits
      rfl
    unfold select_branch_visits
    simp
    split
    next chosen h =>
      simp at h
      subst h
      exact hch
    next h => rfl
  have hsel2 : create_selectors ⟨1, 2⟩ 1 = [1] := by decide
  have hmem : ((2 : Int), (1 : Int)) ∈ select_branch_visits
      (element.mk .OR 0 10 [element.mk .AND 0 4 [], element.mk .AND 6 10 []])
      (create_selectors (compute_depth_width
        (element.mk .OR 0 10 [element.mk .AND 0 4 [], element.mk .AND 6 10 []])) 1) 0 := by
    rw [hdw, hsel2, hvis]
    exact List.mem_singleton.mpr rfl
  exact ⟨by decide, hne, hmem,
    select_branch_selector_in_range
      (element.mk .OR 0 10 [element.mk .AND 0 4 [], element.mk .AND 6 10 []]) 1
      (by decide) hne ((2 : Int), (1 : Int)) hmem⟩

/-! ### C1: the lock-step whitespace-skipping walk of `diff` -/

theorem drop_length_takeWhile (p : α → Bool) (l : List α) :
    l.drop (l.takeWhile p).length = l.dropWhile p := by
  induction l with
  | nil => rfl
  | cons a l ih =>
      rw [List.takeWhile_cons, List.dropWhile_cons]
      by_cases ha : p a
      · rw [if_pos ha, if_pos ha]
        simpa using ih
      · rw [if_neg ha, if_neg ha]
        simp

theorem drop_skip_ws (b : List Char) (i : Nat) :
    b.drop (skip_ws b i) = (b.drop i).dropWhile is_diff_space := by
  unfold skip_ws
  rw [← List.drop_drop, drop_length_takeWhile]

theorem skip_ws_le_length (b : List Char) (i : Nat) (h : i ≤ b.length) :
    skip_ws b i ≤ b.length := by
  unfold skip_ws
  have h2 := length_takeWhile_le' is_diff_space (b.drop i)
  rw [List.length_drop] at h2
  omega

theorem le_skip_ws (b : List Char) (i : Nat) : i ≤ skip_ws b i :=
  Nat.le_add_right _ _

theorem non_space_content_dropWhile (l : List Char) :
    non_space_content (l.dropWhile is_diff_space) = non_space_content l := by
  induction l with
  | nil => rfl
  | cons a l ih =>
      rw [List.dropWhile_cons]
      by_cases ha : is_diff_space a = true
      · rw [if_pos ha, ih]
        unfold non_space_content
        rw [List.filter_cons_of_neg (by simp [ha])]
      · rw [if_neg ha]

theorem skip_ws_stop (b : List Char) (i : Nat) (h : skip_ws b i < b.length) :
    is_diff_space (b[skip_ws b i]) = false := by
  have hcons := List.drop_eq_getElem_cons h
  rw [drop_skip_ws] at hcons
  have h2 := List.head?_dropWhile_not is_diff_space (b.drop i)
  rw [hcons] at h2
  rw [List.head?_cons] at h2
  exact h2

theorem non_space_content_drop_cons (b : List Char) (i : Nat) (h : i < b.length)
    (hns : is_diff_space (b[i]) = false) :
    non_space_content (b.drop i) = b[i] :: non_space_content (b.drop (i + 1)) := by
  rw [List.drop_eq_getElem_cons h]
  unfold non_space_content
  rw [List.filter_cons_of_pos (by simp [hns])]

theorem ends_in_space_of_ws_suffix (b : List Char) (j : Nat) (hne : b.drop j ≠ [])
    (hstrip : non_space_content (b.drop j) = []) : ends_in_space b = true := by
  obtain ⟨x, hx⟩ : ∃ x, (b.drop j).getLast? = some x := by
    rcases hx : (b.drop j).getLast? with _ | x
    · rw [List.getLast?_eq_none_iff] at hx
      exact absurd hx hne
    · exact ⟨x, rfl⟩
  have hlast : b.getLast? = some x := by
    conv_lhs => rw [← List.take_append_drop j b]
    rw [List.getLast?_append, hx]
    rfl
  have hmem := List.mem_of_getLast?_eq_some hx
  have hws : is_diff_space x = true := by
    unfold non_space_content at hstrip
    rw [List.filter_eq_nil_iff] at hstrip
    simpa using hstrip x hmem
  unfold ends_in_space
  rw [hlast]
  simpa using hws

theorem ends_in_space_eq_last (b : List Char) (i : Nat) (h : i + 1 = b.length) :
    ends_in_space b = is_diff_space (b[i]) := by
  unfold ends_in_space
  rw [List.getLast?_eq_getElem?]
  have h2 : b.length - 1 = i := by omega
  rw [h2, List.getElem?_eq_getElem (by omega)]
  rfl

theorem diff_walk_loop_succ (b1 b2 : List Char) (fuel i j : Nat) :
    diff_walk_loop b1 b2 (fuel + 1) i j =
      if i < b1.length ∧ j < b2.length then
        (if charAt b1 (skip_ws b1 i) == charAt b2 (skip_ws b2 j) then
          diff_walk_loop b1 b2 fuel (skip_ws b1 i + 1) (skip_ws b2 j + 1)
        else some (skip_ws b1 i, skip_ws b2 j))
      else if i < b1.length ∨ j < b2.length then some (i, j) else none := rfl

theorem diff_walk_loop_none (b1 b2 : List Char)
    (hend : ends_in_space b1 = ends_in_space b2) :
    ∀ fuel i j, b1.length < i + fuel →
      non_space_content (b1.drop i) = non_space_content (b2.drop j) →
      (b1.length ≤ i ↔ b2.length ≤ j) →
      diff_walk_loop b1 b2 fuel i j = none := by
  intro fuel
  induction fuel with
  | zero => intro i j _ _ _; rfl
  | succ fuel ih =>
      intro i j hf hstrip hsync
      rw [diff_walk_loop_succ]
      by_cases hguard : i < b1.length ∧ j < b2.length
      · rw [if_pos hguard]
        have hstrip1 : non_space_content (b1.drop (skip_ws b1 i)) =
            non_space_content (b2.drop (skip_ws b2 j)) := by
          rw [drop_skip_ws, drop_skip_ws, non_space_content_dropWhile,
            non_space_content_dropWhile]
          exact hstrip
        have hi1le : skip_ws b1 i ≤ b1.length :=
          skip_ws_le_length b1 i (le_of_lt hguard.1)
        have hj1le : skip_ws b2 j ≤ b2.length :=
          skip_ws_le_length b2 j (le_of_lt hguard.2)
        have hii := le_skip_ws b1 i
        have hjj := le_skip_ws b2 j
        rcases Nat.lt_or_ge (skip_ws b1 i) b1.length with hi1 | hi1
        · rcases Nat.lt_or_ge (skip_ws b2 j) b2.length with hj1 | hj1
          · -- both stopped on an in-bounds non-space byte: they are equal
            have hns1 := skip_ws_stop b1 i hi1
            have hns2 := skip_ws_stop b2 j hj1
            have hcons1 := non_space_content_drop_cons b1 (skip_ws b1 i) hi1 hns1
            have hcons2 := non_space_content_drop_cons b2 (skip_ws b2 j) hj1 hns2
            rw [hcons1, hcons2] at hstrip1
            have hhead : b1[skip_ws b1 i] = b2[skip_ws b2 j] :=
              (List.cons.injEq _ _ _ _ ▸ hstrip1).1
            have htail : non_space_content (b1.drop (skip_ws b1 i + 1)) =
                non_space_content (b2.drop (skip_ws b2 j + 1)) :=
              (List.cons.injEq _ _ _ _ ▸ hstrip1).2
            have hchar : (charAt b1 (skip_ws b1 i) == charAt b2 (skip_ws b2 j)) = true := by
              unfold charAt
              rw [List.getD_eq_getElem _ _ hi1, List.getD_eq_getElem _ _ hj1, hhead]
              simp
            rw [if_pos hchar]
            apply ih
            · omega
            · exact htail
            · constructor
              · intro hle1
                by_contra hlt2
                have hnil1 : b1.drop (skip_ws b1 i + 1) = [] :=
                  List.drop_eq_nil_of_le hle1
                have hstripnil : non_space_content (b2.drop (skip_ws b2 j + 1)) = [] := by
                  rw [← htail, hnil1]
                  rfl
                have hne2 : b2.drop (skip_ws b2 j + 1) ≠ [] := by
                  rw [Ne, List.drop_eq_nil_iff]
                  omega
                have hends2 := ends_in_space_of_ws_suffix b2 _ hne2 hstripnil
                have hends1 : ends_in_space b1 = false := by
                  rw [ends_in_space_eq_last b1 (skip_ws b1 i) (by omega)]
                  exact hns1
                rw [hends1, hends2] at hend
                cases hend
              · intro hle2
                by_contra hlt1
                have hnil2 : b2.drop (skip_ws b2 j + 1) = [] :=
                  List.drop_eq_nil_of_le hle2
                have hstripnil : non_space_content (b1.drop (skip_ws b1 i + 1)) = [] := by
                  rw [htail, hnil2]
                  rfl
                have hne1 : b1.drop (skip_ws b1 i + 1) ≠ [] := by
                  rw [Ne, List.drop_eq_nil_iff]
                  omega
                have hends1 := ends_in_space_of_ws_suffix b1 _ hne1 hstripnil
                have hends2 : ends_in_space b2 = false := by
                  rw [ends_in_space_eq_last b2 (skip_ws b2 j) (by omega)]
                  exact hns2
                rw [hends1, hends2] at hend
                cases hend
          · -- side 2 exhausted but side 1 stopped on a real byte: impossible
            exfalso
            have hnil2 : b2.drop (skip_ws b2 j) = [] := List.drop_eq_nil_of_le hj1
            rw [hnil2] at hstrip1
            have hns1 := skip_ws_stop b1 i hi1
            rw [non_space_content_drop_cons b1 (skip_ws b1 i) hi1 hns1] at hstrip1
            cases hstrip1
        · rcases Nat.lt_or_ge (skip_ws b2 j) b2.length with hj1 | hj1
          · exfalso
            have hnil1 : b1.drop (skip_ws b1 i) = [] := List.drop_eq_nil_of_le hi1
            rw [hnil1] at hstrip1
            have hns2 := skip_ws_stop b2 j hj1
            rw [non_space_content_drop_cons b2 (skip_ws b2 j) hj1 hns2] at hstrip1
            cases hstrip1
          · -- both skips ran into the NUL terminator: equal characters, then done
            have hchar : (charAt b1 (skip_ws b1 i) == charAt b2 (skip_ws b2 j)) = true := by
              unfold charAt
              rw [List.getD_eq_getElem?_getD, List.getD_eq_getElem?_getD,
                List.getElem?_eq_none (by omega), List.getElem?_eq_none (by omega)]
              rfl
            rw [if_pos hchar]
            apply ih
            · omega
            · rw [List.drop_eq_nil_of_le (by omega), List.drop_eq_nil_of_le (by omega)]
            · constructor <;> intro <;> omega
      · rw [if_neg hguard]
        have hboth : b1.length ≤ i ∧ b2.length ≤ j := by
          rcases Nat.lt_or_ge i b1.length with h1 | h1
          · rcases Nat.lt_or_ge j b2.length with h2 | h2
            · exact absurd ⟨h1, h2⟩ hguard
            · exact ⟨hsync.mpr h2, h2⟩
          · exact ⟨h1, hsync.mp h1⟩
        rw [if_neg (by omega)]

/-- C1 counterexample: the extracted contents `"a "` and `"a"` differ only by
one inserted space run (their non-space bytes agree), yet the lock-step walk
reports a divergence at `(1, 1)`: the loop condition exhausts the second side
before the first side's trailing space can be skipped. -/
theorem diff_walk_trailing_ws_counterexample :
    non_space_content ['a', ' '] = non_space_content ['a'] ∧
    diff_walk ['a', ' '] ['a'] = some (1, 1) := by
  constructor
  · rfl
  · rfl

/-- C1 amended: two matched extents whose contents differ only by inserted
space/tab/newline runs compare as unchanged, provided additionally that
either both extents end in a space/tab/newline byte or neither does; when
exactly one side ends in a whitespace run, the walk exhausts the other side
first and reports a divergence instead. -/
theorem diff_walk_whitespace_insensitive (b1 b2 : List Char)
    (hsame : non_space_content b1 = non_space_content b2)
    (hend : ends_in_space b1 = ends_in_space b2) :
    diff_walk b1 b2 = none := by
  unfold diff_walk
  apply diff_walk_loop_none b1 b2 hend
  · omega
  · simpa using hsame
  · constructor
    · intro h1
      by_contra h2
      have hb1 : b1 = [] := List.eq_nil_of_length_eq_zero (by omega)
      have hstrip2 : non_space_content b2 = [] := by
        rw [← hsame, hb1]
        rfl
      have hne2 : b2.drop 0 ≠ [] := by
        rw [List.drop_zero]
        intro hc
        rw [hc] at h2
        simp at h2
      have hends2 := ends_in_space_of_ws_suffix b2 0 hne2 (by rw [List.drop_zero]; exact hstrip2)
      have hends1 : ends_in_space b1 = false := by
        rw [hb1]
        rfl
      rw [hends1, hends2] at hend
      cases hend
    · intro h2
      by_contra h1
      have hb2 : b2 = [] := List.eq_nil_of_length_eq_zero (by omega)
      have hstrip1 : non_space_content b1 = [] := by
        rw [hsame, hb2]
        rfl
      have hne1 : b1.drop 0 ≠ [] := by
        rw [List.drop_zero]
        intro hc
        rw [hc] at h1
        simp at h1
      have hends1 := ends_in_space_of_ws_suffix b1 0 hne1 (by rw [List.drop_zero]; exact hstrip1)
      have hends2 : ends_in_space b2 = false := by
        rw [hb2]
        rfl
      rw [hends1, hends2] at hend
      cases hend

/-- Witness for the amended C1 theorem: `"a  b\n"` against `"a b\t"`. -/
theorem diff_walk_whitespace_insensitive_witness :
    diff_walk ['a', ' ', ' ', 'b', '\n'] ['a', ' ', 'b', '\t'] = none :=
  diff_walk_whitespace_insensitive ['a', ' ', ' ', 'b', '\n'] ['a', ' ', 'b', '\t']
    (by decide) (by decide)

/-! ### C6: `match_symbol` closes on the next even-backslash quote -/

theorem strchrIdx_some (buffer : List Char) (index : Nat) (symbol : Char) (p : Nat)
    (h : strchrIdx buffer index symbol = some p) :
    index ≤ p ∧ p < buffer.length ∧ buffer[p]? = some symbol ∧
      ∀ q, index ≤ q → q < p → buffer[q]? ≠ some symbol := by
  unfold strchrIdx at h
  by_cases hc : index + ((buffer.drop index).takeWhile fun x => x != symbol).length <
      buffer.length
  · rw [if_pos hc, Option.some.injEq] at h
    subst h
    refine ⟨Nat.le_add_right _ _, hc, ?_, ?_⟩
    · obtain ⟨a, ha, hpa⟩ := takeWhile_stop (fun x => x != symbol) (buffer.drop index)
        (by rw [List.length_drop]; omega)
      rw [List.getElem?_drop] at ha
      rw [ha]
      have : a = symbol := by simpa using hpa
      rw [this]
    · intro q hq1 hq2 hqs
      obtain ⟨a, ha, hpa⟩ := takeWhile_getElem? (fun x => x != symbol) (buffer.drop index)
        (q - index) (by omega)
      rw [List.getElem?_drop] at ha
      have hqi : index + (q - index) = q := by omega
      rw [hqi] at ha
      rw [ha, Option.some.injEq] at hqs
      rw [hqs] at hpa
      simp at hpa
  · rw [if_neg hc] at h
    cases h

theorem strchrIdx_none (buffer : List Char) (index : Nat) (symbol : Char)
    (h : strchrIdx buffer index symbol = none) :
    ∀ q, index ≤ q → buffer[q]? ≠ some symbol := by
  unfold strchrIdx at h
  by_cases hc : index + ((buffer.drop index).takeWhile fun x => x != symbol).length <
      buffer.length
  · rw [if_pos hc] at h
    cases h
  · intro q hq hqs
    rcases Nat.lt_or_ge q buffer.length with hql | hql
    · obtain ⟨a, ha, hpa⟩ := takeWhile_getElem? (fun x => x != symbol) (buffer.drop index)
        (q - index)
        (by
          have h2 := length_takeWhile_le' (fun x => x != symbol) (buffer.drop index)
          rw [List.length_drop] at h2
          omega)
      rw [List.getElem?_drop] at ha
      have hqi : index + (q - index) = q := by omega
      rw [hqi] at ha
      rw [ha, Option.some.injEq] at hqs
      rw [hqs] at hpa
      simp at hpa
    · rw [List.getElem?_eq_none hql] at hqs
      cases hqs

theorem escfold_parity (l : List Char) :
    l.foldl (fun flag c => if c == '\\' then !flag else false) false =
      decide ((l.reverse.takeWhile (fun c => c == '\\')).length % 2 = 1) := by
  induction l using List.reverseRecOn with
  | nil => rfl
  | append_singleton l a ih =>
      rw [List.foldl_append, List.foldl_cons, List.foldl_nil, ih, List.reverse_append]
      show (if a == '\\' then _ else false) = _
      by_cases ha : (a == '\\') = true
      · rw [if_pos ha]
        have hrw : ([a] : List Char).reverse ++ l.reverse = a :: l.reverse := rfl
        rw [hrw, List.takeWhile_cons]
        have hcond : ((fun c => c == '\\') a) = true := ha
        rw [if_pos hcond, List.length_cons]
        rcases Nat.mod_two_eq_zero_or_one
            ((l.reverse.takeWhile fun c => c == '\\').length) with h2 | h2 <;>
          simp [h2, Nat.add_mod]
      · rw [if_neg ha]
        have hrw : ([a] : List Char).reverse ++ l.reverse = a :: l.reverse := rfl
        rw [hrw, List.takeWhile_cons]
        have hcond : ¬ (((fun c => c == '\\') a) = true) := by simpa using ha
        rw [if_neg hcond, List.length_nil]
        simp

theorem takeWhile_eq_nil_of_head (p : α → Bool) (l : List α) (x : α)
    (hh : l.head? = some x) (hx : p x = false) : l.takeWhile p = [] := by
  cases l with
  | nil => rfl
  | cons a l =>
      rw [List.head?_cons, Option.some.injEq] at hh
      subst hh
      exact List.takeWhile_cons_of_neg (by simp [hx])

theorem head_reverse_take (buffer : List Char) (p : Nat) (hp : 1 ≤ p)
    (hpl : p ≤ buffer.length) :
    ((buffer.take p).reverse).head? = buffer[p - 1]? := by
  rw [List.head?_reverse, List.getLast?_eq_getElem?, List.length_take]
  have h1 : min p buffer.length = p := by omega
  rw [h1]
  exact List.getElem?_take_of_lt (by omega)

theorem trailing_backslashes_zero (buffer : List Char) (p : Nat) (hp : 1 ≤ p)
    (hpl : p ≤ buffer.length) (h : (charAt buffer (p - 1) == '\\') = false) :
    trailing_backslashes buffer p = 0 := by
  unfold trailing_backslashes
  have hhead := head_reverse_take buffer p hp hpl
  have hx : buffer[p - 1]? = some (buffer[p - 1]) :=
    List.getElem?_eq_getElem (by omega)
  rw [hx] at hhead
  have hb : ((buffer[p - 1] : Char) == '\\') = false := by
    unfold charAt at h
    rw [List.getD_eq_getElem _ _ (by omega : p - 1 < buffer.length)] at h
    exact h
  rw [takeWhile_eq_nil_of_head _ _ _ hhead hb]
  rfl

theorem escflag_parity (buffer : List Char) (i0 p : Nat) (symbol : Char)
    (hsym : buffer[i0]? = some symbol) (hns : symbol ≠ '\\')
    (hip : i0 < p) (hpl : p ≤ buffer.length) :
    escflag buffer (i0 + 1) (p - 1) =
      decide (trailing_backslashes buffer p % 2 = 1) := by
  have hi0 : i0 < buffer.length := by
    by_contra hc
    rw [List.getElem?_eq_none (by omega)] at hsym
    cases hsym
  unfold escflag trailing_backslashes
  rw [escfold_parity]
  have hseg : p - 1 + 1 - (i0 + 1) = p - (i0 + 1) := by omega
  rw [hseg]
  have hsplit : buffer.take p = buffer.take (i0 + 1) ++ (buffer.drop (i0 + 1)).take (p - (i0 + 1)) := by
    have hpe : p = (i0 + 1) + (p - (i0 + 1)) := by omega
    conv_lhs => rw [hpe]
    exact List.take_add buffer (i0 + 1) (p - (i0 + 1))
  rw [hsplit, List.reverse_append]
  set seg := (buffer.drop (i0 + 1)).take (p - (i0 + 1)) with hsegdef
  have hheadA : ((buffer.take (i0 + 1)).reverse).head? = some symbol := by
    rw [head_reverse_take buffer (i0 + 1) (by omega) (by omega)]
    simpa using hsym
  have hAnil : ((buffer.take (i0 + 1)).reverse).takeWhile (fun c => c == '\\') = [] := by
    apply takeWhile_eq_nil_of_head _ _ symbol hheadA
    simp only [beq_eq_false_iff_ne, ne_eq]
    exact hns
  rw [List.takeWhile_append]
  by_cases hfull : ((seg.reverse).takeWhile (fun c => c == '\\')).length = seg.reverse.length
  · rw [if_pos hfull, List.length_append, hAnil, List.length_nil]
    have hfull2 : (seg.reverse).takeWhile (fun c => c == '\\') = seg.reverse := by
      have hsub := List.takeWhile_sublist (l := seg.reverse) (p := fun c => c == '\\')
      exact List.Sublist.eq_of_length hsub hfull
    rw [hfull2]
    rw [Nat.add_zero]
  · rw [if_neg hfull]

theorem first_valid_close_from_succ (buffer : List Char) (symbol : Char)
    (rem p : Nat) :
    first_valid_close_from buffer symbol (rem + 1) p =
      if valid_close buffer symbol p then some p
      else first_valid_close_from buffer symbol rem (p + 1) := rfl

theorem first_valid_close_end (buffer : List Char) (symbol : Char) (idx : Nat)
    (hge : buffer.length ≤ idx) :
    first_valid_close buffer symbol idx = none := by
  unfold first_valid_close
  rw [Nat.sub_eq_zero_of_le hge]
  rfl

theorem first_valid_close_at (buffer : List Char) (symbol : Char) (idx : Nat)
    (hlt : idx < buffer.length) :
    first_valid_close buffer symbol idx =
      if valid_close buffer symbol idx then some idx
      else first_valid_close buffer symbol (idx + 1) := by
  unfold first_valid_close
  have hlen : buffer.length - idx = (buffer.length - (idx + 1)) + 1 := by omega
  rw [hlen, first_valid_close_from_succ]

theorem first_valid_close_shift (buffer : List Char) (symbol : Char) :
    ∀ (d idx : Nat), idx + d ≤ buffer.length →
      (∀ r, idx ≤ r → r < idx + d → valid_close buffer symbol r = false) →
      first_valid_close buffer symbol idx = first_valid_close buffer symbol (idx + d) := by
  intro d
  induction d with
  | zero => intro idx _ _; rfl
  | succ d ih =>
      intro idx hle hall
      rw [first_valid_close_at buffer symbol idx (by omega),
        if_neg (by rw [hall idx (le_refl idx) (by omega)]; exact Bool.false_ne_true)]
      have h2 : idx + (d + 1) = (idx + 1) + d := by omega
      rw [h2]
      exact ih (idx + 1) (by omega) (fun r h1 h3 => hall r (by omega) (by omega))

theorem match_symbol_loop_succ (buffer : List Char) (symbol : Char)
    (index_orig fuel index : Nat) :
    match_symbol_loop buffer symbol index_orig (fuel + 1) index =
      match strchrIdx buffer index symbol with
      | none => buffer.length
      | some p =>
          if charAt buffer (p - 1) == '\\' then
            if escflag buffer (index_orig + 1) (p - 1) then
              match_symbol_loop buffer symbol index_orig fuel (p + 1)
            else p + 1
          else p + 1 := rfl

theorem match_symbol_loop_spec (buffer : List Char) (symbol : Char) (i0 : Nat)
    (hsym : buffer[i0]? = some symbol) (hns : symbol ≠ '\\') :
    ∀ fuel idx, i0 < idx → buffer.length < idx + fuel →
      match_symbol_loop buffer symbol i0 fuel idx =
        (match first_valid_close buffer symbol idx with
         | some p => p + 1
         | none => buffer.length) := by
  intro fuel
  induction fuel with
  | zero =>
      intro idx _ hf
      rw [first_valid_close_end buffer symbol idx (by omega)]
      rfl
  | succ fuel ih =>
      intro idx hgt hf
      rw [match_symbol_loop_succ]
      rcases hs : strchrIdx buffer idx symbol with _ | p
      all_goals dsimp only
      · have hnone : first_valid_close buffer symbol idx = none := by
          rcases le_or_lt idx buffer.length with hc | hc
          · have hall : ∀ r, idx ≤ r → r < idx + (buffer.length - idx) →
                valid_close buffer symbol r = false := by
              intro r h1 h2
              unfold valid_close
              have hrs := strchrIdx_none buffer idx symbol hs r h1
              have : (charAt buffer r == symbol) = false := by
                unfold charAt
                rw [List.getD_eq_getElem _ _ (by omega : r < buffer.length)]
                rw [List.getElem?_eq_getElem (by omega : r < buffer.length)] at hrs
                simp only [beq_eq_false_iff_ne, ne_eq]
                intro hcc
                exact hrs (by rw [hcc])
              rw [this]
              rfl
            rw [first_valid_close_shift buffer symbol (buffer.length - idx) idx
              (by omega) hall]
            exact first_valid_close_end _ _ _ (by omega)
          · exact first_valid_close_end _ _ _ (by omega)
        rw [hnone]
      · obtain ⟨hip, hpl, hsymp, hnob⟩ := strchrIdx_some _ _ _ _ hs
        have hskip : first_valid_close buffer symbol idx =
            first_valid_close buffer symbol p := by
          have hall : ∀ r, idx ≤ r → r < idx + (p - idx) →
              valid_close buffer symbol r = false := by
            intro r h1 h2
            unfold valid_close
            have hrs := hnob r h1 (by omega)
            have : (charAt buffer r == symbol) = false := by
              unfold charAt
              rw [List.getD_eq_getElem _ _ (by omega : r < buffer.length)]
              rw [List.getElem?_eq_getElem (by omega : r < buffer.length)] at hrs
              simp only [beq_eq_false_iff_ne, ne_eq]
              intro hcc
              exact hrs (by rw [hcc])
            rw [this]
            rfl
          have h2 : idx + (p - idx) = p := by omega
          rw [← h2]
          exact first_valid_close_shift buffer symbol (p - idx) idx (by omega)
            (by rw [h2] at hall ⊢; exact fun r ha hb => hall r ha hb)
        have hcharp : (charAt buffer p == symbol) = true := by
          unfold charAt
          rw [List.getD_eq_getElem _ _ hpl]
          rw [List.getElem?_eq_getElem hpl] at hsymp
          simp only [Option.some.injEq] at hsymp
          rw [hsymp]
          simp
        by_cases hbs : (charAt buffer (p - 1) == '\\') = true
        · have hesc := escflag_parity buffer i0 p symbol hsym hns (by omega)
            (le_of_lt hpl)
          by_cases hodd : trailing_backslashes buffer p % 2 = 1
          · rw [if_pos hbs, if_pos (by rw [hesc]; simpa using hodd)]
            rw [ih (p + 1) (by omega) (by omega), hskip,
              first_valid_close_at buffer symbol p hpl,
              if_neg (by
                unfold valid_close
                rw [hcharp]
                simp only [Bool.true_and, beq_iff_eq]
                omega)]
          · rw [if_pos hbs, if_neg (by rw [hesc]; simpa using hodd)]
            rw [hskip, first_valid_close_at buffer symbol p hpl,
              if_pos (by
                unfold valid_close
                rw [hcharp]
                simp only [Bool.true_and, beq_iff_eq]
                omega)]
        · have hzero : trailing_backslashes buffer p = 0 :=
            trailing_backslashes_zero buffer p (by omega) (le_of_lt hpl)
              (by simpa using hbs)
          rw [if_neg hbs, hskip, first_valid_close_at buffer symbol p hpl,
            if_pos (by
              unfold valid_close
              rw [hcharp, hzero]
              simp)]

/-- C6: `match_symbol` (given the quote character actually sits at the opening
offset) returns one past the first later position holding the matching quote
preceded by an even number of consecutive backslashes — continuing past every
occurrence preceded by an odd number — or the buffer length when no such
position exists. -/
theorem match_symbol_escape_parity (buffer : List Char) (i0 : Nat) (symbol : Char)
    (hsym : buffer[i0]? = some symbol) (hns : symbol ≠ '\\') :
    match_symbol buffer i0 symbol =
      some (match first_valid_close buffer symbol (i0 + 1) with
            | some p => p + 1
            | none => buffer.length) := by
  have hi0 : i0 < buffer.length := by
    by_contra hc
    rw [List.getElem?_eq_none (by omega)] at hsym
    cases hsym
  unfold match_symbol
  rw [if_pos (by
    unfold charAt
    rw [List.getD_eq_getElem _ _ hi0]
    rw [List.getElem?_eq_getElem hi0] at hsym
    simp only [Option.some.injEq] at hsym
    rw [hsym]
    simp)]
  rw [match_symbol_loop_spec buffer symbol i0 hsym hns (buffer.length + 1) (i0 + 1)
    (by omega) (by omega)]

/-- Witness for C6: in `"a\"b"` (quote, a, backslash, quote, b, quote) the
quote at offset 3 is escaped (one backslash) and the scan closes at offset 5,
returning 6. -/
theorem match_symbol_escape_parity_witness :
    match_symbol ['\"', 'a', '\\', '\"', 'b', '\"'] 0 '\"' = some 6 := by
  rw [match_symbol_escape_parity ['\"', 'a', '\\', '\"', 'b', '\"'] 0 '\"'
    (by decide) (by decide)]
  rfl

/-! ### C3: unterminated comments and literals in the classification pass -/

theorem drop_skip_spaces (b : List Char) (i : Nat) :
    b.drop (skip_spaces b i) = (b.drop i).dropWhile is_space := by
  unfold skip_spaces
  rw [← List.drop_drop, drop_length_takeWhile]

theorem le_skip_spaces (b : List Char) (i : Nat) : i ≤ skip_spaces b i :=
  Nat.le_add_right _ _

theorem skip_spaces_le_length (b : List Char) (i : Nat) (h : i ≤ b.length) :
    skip_spaces b i ≤ b.length := by
  unfold skip_spaces
  have h2 := length_takeWhile_le' is_space (b.drop i)
  rw [List.length_drop] at h2
  omega

theorem skip_spaces_stop (b : List Char) (i : Nat) (h : skip_spaces b i < b.length) :
    is_space (b[skip_spaces b i]) = false := by
  have hcons := List.drop_eq_getElem_cons h
  rw [drop_skip_spaces] at hcons
  have h2 := List.head?_dropWhile_not is_space (b.drop i)
  rw [hcons, List.head?_cons] at h2
  exact h2

theorem skip_spaces_no_op (b : List Char) (i : Nat) (h : i < b.length)
    (hns : is_space (b[i]) = false) : skip_spaces b i = i := by
  unfold skip_spaces
  rw [takeWhile_eq_nil_of_head is_space (b.drop i) (b[i])
    (by rw [List.drop_eq_getElem_cons h, List.head?_cons]) hns]
  rfl

theorem skip_spaces_idem (b : List Char) (i : Nat) (h : i ≤ b.length) :
    skip_spaces b (skip_spaces b i) = skip_spaces b i := by
  rcases Nat.lt_or_ge (skip_spaces b i) b.length with hlt | hge
  · exact skip_spaces_no_op b _ hlt (skip_spaces_stop b i hlt)
  · have hdrop : b.drop (skip_spaces b i) = [] := List.drop_eq_nil_of_le hge
    have hstep : skip_spaces b (skip_spaces b i) =
        skip_spaces b i + ((b.drop (skip_spaces b i)).takeWhile is_space).length := rfl
    rw [hstep, hdrop]
    rfl

theorem slice_head (b : List Char) (lo hi : Nat) (h : lo < b.length) (hle : lo ≤ hi) :
    ((b.drop lo).take (hi + 1 - lo)).head? = some (b[lo]) := by
  rw [List.drop_eq_getElem_cons h]
  have h2 : hi + 1 - lo = (hi - lo) + 1 := by omega
  rw [h2]
  rfl

theorem strstrIdx_eq_none (buffer : List Char) (index : Nat)
    (h : ∀ k, index ≤ k → k + 1 < buffer.length →
      ¬ (buffer[k]? = some '*' ∧ buffer[k + 1]? = some '/')) :
    strstrIdx buffer index = none := by
  unfold strstrIdx
  rw [if_neg]
  intro hc
  set zl := (buffer.drop index).zip (buffer.drop (index + 1)) with hzl
  set k := (zl.takeWhile (fun pc => !(pc.1 == '*' && pc.2 == '/'))).length with hkdef
  have hzlen : zl.length = min (buffer.length - index) (buffer.length - (index + 1)) := by
    rw [hzl, List.length_zip, List.length_drop, List.length_drop]
  have hklt : k < zl.length := by omega
  obtain ⟨a, ha, hpa⟩ :=
    takeWhile_stop (fun pc => !(pc.1 == '*' && pc.2 == '/')) zl (by rw [← hkdef]; exact hklt)
  rw [← hkdef] at ha
  have hpair : a.1 = '*' ∧ a.2 = '/' := by simpa using hpa
  rw [hzl, List.getElem?_zip_eq_some] at ha
  obtain ⟨ha1, ha2⟩ := ha
  rw [List.getElem?_drop] at ha1
  rw [List.getElem?_drop] at ha2
  have hk1 : index + 1 + k = (index + k) + 1 := by omega
  rw [hk1] at ha2
  refine h (index + k) (by omega) (by omega) ⟨?_, ?_⟩
  · rw [ha1, hpair.1]
  · rw [ha2, hpair.2]

theorem matchComment_to_end (buffer : List Char) (index : Nat)
    (h0 : charAt buffer index = '/') (h1 : charAt buffer (index + 1) = '*')
    (h : ∀ k, index + 2 ≤ k → k + 1 < buffer.length →
      ¬ (buffer[k]? = some '*' ∧ buffer[k + 1]? = some '/')) :
    matchComment buffer index = some buffer.length := by
  unfold matchComment
  rw [if_neg (by simp [h0]), if_neg (by simp [h1]), strstrIdx_eq_none buffer (index + 2) h]

theorem slice_singleton (b : List Char) (lo : Nat) (h : lo < b.length) :
    (b.drop lo).take (lo + 1 - lo) = [b[lo]] := by
  rw [List.drop_eq_getElem_cons h]
  have h2 : lo + 1 - lo = 1 := by omega
  rw [h2]
  rfl

theorem get_simple_token_spec (buffer : List Char) (index b e : Nat)
    (t : List Char) (idx : Nat)
    (h : get_simple_token buffer index = some (b, e, t, idx)) :
    b = skip_spaces buffer index ∧ b < buffer.length ∧ b ≤ e ∧
    idx = skip_spaces buffer (e + 1) ∧
    t = (buffer.drop b).take (e + 1 - b) ∧
    ((is_delimiter (charAt buffer b) = true ∧ e = b) ∨
     (is_delimiter (charAt buffer b) = false ∧ e = token_run_end buffer (b + 1) - 1)) := by
  unfold get_simple_token at h
  by_cases h1 : buffer.length ≤ index
  · rw [if_pos h1] at h
    cases h
  · rw [if_neg h1] at h
    by_cases h2 : buffer.length ≤ skip_spaces buffer index
    · rw [if_pos h2] at h
      cases h
    · rw [if_neg h2] at h
      simp only [Option.some.injEq, Prod.mk.injEq] at h
      obtain ⟨hb, he, ht, hidx⟩ := h
      rw [hb] at he ht h2 hidx
      by_cases hdel : is_delimiter (charAt buffer b) = true
      · rw [if_pos hdel] at he ht hidx
        subst he
        exact ⟨hb.symm, by omega, le_refl _, hidx.symm, ht.symm, Or.inl ⟨hdel, rfl⟩⟩
      · rw [if_neg hdel] at he ht hidx
        subst he
        refine ⟨hb.symm, by omega, ?_, hidx.symm, ht.symm,
          Or.inr ⟨by simpa using hdel, rfl⟩⟩
        unfold token_run_end
        omega

theorem simple_token_ne_star_slash (buffer : List Char) (index b e : Nat)
    (t : List Char) (idx : Nat)
    (h : get_simple_token buffer index = some (b, e, t, idx)) : t ≠ ['*', '/'] := by
  intro hts
  obtain ⟨hb, hblt, hble, hidx, ht, hcase⟩ := get_simple_token_spec buffer index b e t idx h
  rcases hcase with ⟨hdel, hebe⟩ | ⟨hdel, _⟩
  · rw [hebe, slice_singleton buffer b hblt] at ht
    rw [ht] at hts
    simp at hts
  · have hhead : t.head? = some (buffer[b]) := by
      rw [ht]
      exact slice_head buffer b e hblt hble
    rw [hts, List.head?_cons] at hhead
    simp only [Option.some.injEq] at hhead
    unfold charAt at hdel
    rw [List.getD_eq_getElem _ _ hblt, ← hhead] at hdel
    exact absurd hdel (by decide)

theorem compatible_tokens_shape (t1 t2 : List Char)
    (h : compatible_tokens t1 t2 = true) :
    t1 = ['#'] ∨ (∃ c1 c2, t1 = [c1] ∧ t2 = [c2]) := by
  unfold compatible_tokens at h
  by_cases h1 : t1 = ['#']
  · exact Or.inl h1
  · rw [if_neg h1] at h
    right
    cases t1 with
    | nil => simp at h
    | cons c1 r1 =>
        cases r1 with
        | nil =>
            cases t2 with
            | nil => simp at h
            | cons c2 r2 =>
                cases r2 with
                | nil => exact ⟨c1, c2, rfl, rfl⟩
                | cons x xs => simp at h
        | cons x xs => simp at h

theorem get_token_star_slash (buffer : List Char) (index b e : Nat)
    (t : List Char) (idx : Nat)
    (hg : get_token buffer index = some (b, e, t, idx)) (hts : t = ['*', '/']) :
    b + 1 < buffer.length ∧ buffer[b]? = some '*' ∧ buffer[b + 1]? = some '/' := by
  subst hts
  unfold get_token at hg
  rcases h1 : get_simple_token buffer index with _ | ⟨⟨b1, e1, t1, i1⟩⟩
  · rw [h1] at hg
    cases hg
  · rw [h1] at hg
    dsimp only at hg
    rcases h2 : get_simple_token buffer i1 with _ | ⟨⟨b2, e2, t2, i2⟩⟩
    · rw [h2] at hg
      dsimp only at hg
      simp only [Option.some.injEq, Prod.mk.injEq] at hg
      exact absurd hg.2.2.1 (simple_token_ne_star_slash buffer index b1 e1 t1 i1 h1)
    · rw [h2] at hg
      dsimp only at hg
      by_cases hadj : index + t1.length ≠ i1 ∧
          (allow_space_in_pragma_name && (t1 == ['#'])) = false
      · rw [if_pos hadj] at hg
        simp only [Option.some.injEq, Prod.mk.injEq] at hg
        exact absurd hg.2.2.1 (simple_token_ne_star_slash buffer index b1 e1 t1 i1 h1)
      · rw [if_neg hadj] at hg
        by_cases hcomp : compatible_tokens t1 t2 = true
        · rw [if_pos hcomp] at hg
          simp only [Option.some.injEq, Prod.mk.injEq] at hg
          obtain ⟨hbb, hee, htk, hii⟩ := hg
          rcases compatible_tokens_shape t1 t2 hcomp with hsharp | ⟨c1, c2, ht1, ht2⟩
          · rw [hsharp] at htk
            simp at htk
          · rw [ht1, ht2] at htk
            have hc1 : c1 = '*' := by
              have := congrArg List.head? htk
              simpa using this
            have hc2 : c2 = '/' := by
              have := congrArg (fun l => l.getLast?) htk
              simpa using this
            subst hc1
            subst hc2
            have hspecial : (allow_space_in_pragma_name && (t1 == ['#'])) = false := by
              rw [ht1]
              decide
            have hadj2 : index + t1.length = i1 := by
              by_contra hc
              exact hadj ⟨hc, hspecial⟩
            rw [ht1] at hadj2
            simp only [List.length_cons, List.length_nil] at hadj2
            obtain ⟨hb1, hb1lt, hb1le, hi1eq, ht1s, _⟩ :=
              get_simple_token_spec buffer index b1 e1 t1 i1 h1
            obtain ⟨hb2, hb2lt, hb2le, _, ht2s, _⟩ :=
              get_simple_token_spec buffer i1 b2 e2 t2 i2 h2
            have hb1ge : index ≤ b1 := by
              rw [hb1]
              exact le_skip_spaces buffer index
            have hi1ge : e1 + 1 ≤ i1 := by
              rw [hi1eq]
              exact le_skip_spaces buffer (e1 + 1)
            have hkey : b1 = index ∧ e1 = b1 ∧ i1 = e1 + 1 := by omega
            obtain ⟨hbi, heb, hie⟩ := hkey
            have hhead1 : t1.head? = some (buffer[b1]) := by
              rw [ht1s]
              exact slice_head buffer b1 e1 hb1lt hb1le
            rw [ht1, List.head?_cons] at hhead1
            simp only [Option.some.injEq] at hhead1
            have hb2eq : b2 = i1 := by
              rw [hb2, hi1eq]
              exact skip_spaces_idem buffer (e1 + 1) (by omega)
            have hhead2 : t2.head? = some (buffer[b2]) := by
              rw [ht2s]
              exact slice_head buffer b2 e2 hb2lt hb2le
            rw [ht2, List.head?_cons] at hhead2
            simp only [Option.some.injEq] at hhead2
            have hb2v : b2 = b1 + 1 := by omega
            have hq1 : buffer[b1]? = some '*' := by
              rw [List.getElem?_eq_getElem hb1lt]
              exact congrArg some hhead1.symm
            have hq2 : buffer[b2]? = some '/' := by
              rw [List.getElem?_eq_getElem hb2lt]
              exact congrArg some hhead2.symm
            refine ⟨?_, ?_, ?_⟩
            · rw [← hbb]
              omega
            · rw [← hbb]
              exact hq1
            · rw [← hbb, ← hb2v]
              exact hq2
        · rw [if_neg hcomp] at hg
          simp only [Option.some.injEq, Prod.mk.injEq] at hg
          exact absurd hg.2.2.1 (simple_token_ne_star_slash buffer index b1 e1 t1 i1 h1)

theorem get_token_comment_open (buffer : List Char) (i : Nat)
    (h0 : buffer[i]? = some '/') (h1 : buffer[i + 1]? = some '*') :
    get_token buffer i = some (i, i + 1, ['/', '*'], skip_spaces buffer (i + 2)) := by
  have hi : i < buffer.length := by
    by_contra hc
    rw [List.getElem?_eq_none (by omega)] at h0
    cases h0
  have hi1 : i + 1 < buffer.length := by
    by_contra hc
    rw [List.getElem?_eq_none (by omega)] at h1
    cases h1
  have hg0 : buffer[i] = '/' := by
    rw [List.getElem?_eq_getElem hi] at h0
    simpa using h0
  have hg1 : buffer[i + 1] = '*' := by
    rw [List.getElem?_eq_getElem hi1] at h1
    simpa using h1
  have hskip0 : skip_spaces buffer i = i :=
    skip_spaces_no_op buffer i hi (by rw [hg0]; decide)
  have hskip1 : skip_spaces buffer (i + 1) = i + 1 :=
    skip_spaces_no_op buffer (i + 1) hi1 (by rw [hg1]; decide)
  have hchar0 : charAt buffer i = '/' := by
    unfold charAt
    rw [List.getD_eq_getElem _ _ hi, hg0]
  have hchar1 : charAt buffer (i + 1) = '*' := by
    unfold charAt
    rw [List.getD_eq_getElem _ _ hi1, hg1]
  have hgs1 : get_simple_token buffer i = some (i, i, ['/'], i + 1) := by
    unfold get_simple_token
    rw [if_neg (by omega), hskip0, if_neg (by omega), hchar0]
    rw [if_pos (by decide : is_delimiter '/' = true)]
    dsimp only
    rw [slice_singleton buffer i hi, hg0, hskip1]
  have hgs2 : get_simple_token buffer (i + 1) =
      some (i + 1, i + 1, ['*'], skip_spaces buffer (i + 2)) := by
    unfold get_simple_token
    rw [if_neg (by omega), hskip1, if_neg (by omega), hchar1]
    rw [if_pos (by decide : is_delimiter '*' = true)]
    dsimp only
    rw [slice_singleton buffer (i + 1) hi1, hg1]
  unfold get_token
  rw [hgs1]
  dsimp only
  rw [hgs2]
  dsimp only
  rw [if_neg (by
    rintro ⟨hc, _⟩
    exact hc (by simp))]
  rw [if_pos (by decide : compatible_tokens ['/'] ['*'] = true)]
  rfl

theorem match_bracket_loop_succ (buffer : List Char) (opening closing : List Char)
    (fuel index : Nat) (counter : Int) (flag : Bool) :
    match_bracket_loop buffer opening closing (fuel + 1) index counter flag =
      match get_token buffer index with
      | none => none
      | some (b, _, token, idx) =>
          if flag = false ∧ token ≠ opening then none
          else
            let counter2 := if token = opening then counter + 1 else counter
            let counter3 := if token = closing then counter2 - 1 else counter2
            if counter3 = 0 then some b
            else match_bracket_loop buffer opening closing fuel idx counter3 true := rfl

theorem match_bracket_loop_no_close (buffer : List Char)
    (hterm : ∀ b, b + 1 < buffer.length →
      ¬ (buffer[b]? = some '*' ∧ buffer[b + 1]? = some '/')) :
    ∀ fuel (index : Nat) (counter : Int), 1 ≤ counter →
      match_bracket_loop buffer ['/', '*'] ['*', '/'] fuel index counter true = none := by
  intro fuel
  induction fuel with
  | zero => intro index counter _; rfl
  | succ fuel ih =>
      intro index counter hc
      rw [match_bracket_loop_succ]
      rcases hg : get_token buffer index with _ | ⟨⟨b, e, tok, idx⟩⟩
      · rfl
      · dsimp only
        rw [if_neg (by simp)]
        have htok : tok ≠ ['*', '/'] := by
          intro hcc
          obtain ⟨hlt, hq1, hq2⟩ := get_token_star_slash buffer index b e tok idx hg hcc
          exact hterm b hlt ⟨hq1, hq2⟩
        by_cases hop : tok = ['/', '*']
        · rw [if_pos hop, if_neg htok, if_neg (by omega : ¬(counter + 1 = 0))]
          exact ih idx (counter + 1) (by omega)
        · rw [if_neg hop, if_neg htok, if_neg (by omega : ¬(counter = 0))]
          exact ih idx counter hc

theorem match_bracket_unterminated (buffer : List Char) (i : Nat)
    (h0 : buffer[i]? = some '/') (h1 : buffer[i + 1]? = some '*')
    (hterm : ∀ b, b + 1 < buffer.length →
      ¬ (buffer[b]? = some '*' ∧ buffer[b + 1]? = some '/')) :
    match_bracket buffer i ['/', '*'] ['*', '/'] = none := by
  unfold match_bracket
  rw [match_bracket_loop_succ, get_token_comment_open buffer i h0 h1]
  dsimp only
  rw [if_neg (by
    rintro ⟨_, hc⟩
    exact hc rfl)]
  rw [if_pos (rfl : (['/', '*'] : List Char) = ['/', '*'])]
  rw [if_neg (by decide : ¬ ((['/', '*'] : List Char) = ['*', '/']))]
  rw [if_neg (by omega : ¬ ((0 : Int) + 1 = 0))]
  exact match_bracket_loop_no_close buffer hterm buffer.length
    (skip_spaces buffer (i + 2)) 1 (by omega)

theorem fcl_plain_spec (c : Char) (h : fcl_plain c = true) :
    (c == '\"') = false ∧ (c == '\'') = false ∧ (c == '/') = false ∧
    (c == '\\') = false ∧ (c == '*') = false := by
  unfold fcl_plain at h
  rw [Bool.not_eq_true'] at h
  simp only [Bool.or_eq_false_iff] at h
  exact ⟨h.1.1.1.1, h.1.1.1.2, h.1.1.2, h.1.2, h.2⟩

theorem fcl_loop_succ (nested : Bool) (buffer : List Char) (al ac ab : Bool)
    (fuel i : Nat) (Items : List item) :
    fcl_loop nested buffer al ac ab (fuel + 1) i Items =
      (if i < buffer.length then
        if buffer.getD i ' ' == '\"' then
          match match_symbol buffer i '\"' with
          | some e => fcl_loop nested buffer al ac ab fuel e
              (Items ++ if al then [⟨i, e - 1, .STRING⟩] else [])
          | none => Except.error ()
        else if buffer.getD i ' ' == '\'' then
          match match_symbol buffer i '\'' with
          | some e => fcl_loop nested buffer al ac ab fuel e
              (Items ++ if al then [⟨i, e - 1, .LITERAL⟩] else [])
          | none => Except.error ()
        else if buffer.getD i ' ' == '/' then
          if charAt buffer (i + 1) == '*' then
            if nested then
              match match_bracket buffer i ['/', '*'] ['*', '/'] with
              | some e => fcl_loop nested buffer al ac ab fuel (e + 2)
                  (Items ++ if ac then [⟨i, e + 1, .COMMENT⟩] else [])
              | none => Except.error ()
            else
              match matchComment buffer i with
              | some e => fcl_loop nested buffer al ac ab fuel e
                  (Items ++ if ac then [⟨i, e - 1, .COMMENT⟩] else [])
              | none => Except.error ()
          else fcl_loop nested buffer al ac ab fuel (i + 1) Items
        else if buffer.getD i ' ' == '\\' then
          fcl_loop nested buffer al ac ab fuel (i + 2)
            (Items ++ if ab then [⟨i, i + 1, .ESCSEQ⟩] else [])
        else fcl_loop nested buffer al ac ab fuel (i + 1) Items
      else Except.ok Items) := rfl

theorem fcl_loop_at_end (nested : Bool) (buffer : List Char) (al ac ab : Bool)
    (fuel i : Nat) (Items : List item) (h : buffer.length ≤ i) :
    fcl_loop nested buffer al ac ab (fuel + 1) i Items = Except.ok Items := by
  rw [fcl_loop_succ, if_neg (by omega)]

theorem fcl_loop_plain_step (nested : Bool) (buffer : List Char) (al ac ab : Bool)
    (fuel i : Nat) (Items : List item) (hi : i < buffer.length)
    (hplain : fcl_plain (buffer.getD i ' ') = true) :
    fcl_loop nested buffer al ac ab (fuel + 1) i Items =
      fcl_loop nested buffer al ac ab fuel (i + 1) Items := by
  obtain ⟨h1, h2, h3, h4, _⟩ := fcl_plain_spec _ hplain
  rw [fcl_loop_succ, if_pos hi,
    if_neg (by rw [h1]; exact Bool.false_ne_true),
    if_neg (by rw [h2]; exact Bool.false_ne_true),
    if_neg (by rw [h3]; exact Bool.false_ne_true),
    if_neg (by rw [h4]; exact Bool.false_ne_true)]

theorem fcl_loop_plain_prefix (nested : Bool) (buffer : List Char) (al ac ab : Bool) :
    ∀ (d fuel i : Nat) (Items : List item),
      (∀ k, i ≤ k → k < i + d →
        k < buffer.length ∧ fcl_plain (buffer.getD k ' ') = true) →
      fcl_loop nested buffer al ac ab (fuel + d) i Items =
        fcl_loop nested buffer al ac ab fuel (i + d) Items := by
  intro d
  induction d with
  | zero => intro fuel i Items _; rfl
  | succ d ih =>
      intro fuel i Items hall
      obtain ⟨hk, hplain⟩ := hall i (le_refl i) (by omega)
      have harith : fuel + (d + 1) = (fuel + d) + 1 := by omega
      rw [harith, fcl_loop_plain_step nested buffer al ac ab (fuel + d) i Items hk hplain]
      have harith2 : i + (d + 1) = (i + 1) + d := by omega
      rw [harith2]
      exact ih fuel (i + 1) Items (fun k h1 h2 => hall k (by omega) (by omega))

theorem append_getElem_hi (pre mid : List Char) (b : Nat) (h : pre.length ≤ b) :
    (pre ++ mid)[b]? = mid[b - pre.length]? :=
  List.getElem?_append_right h

theorem match_symbol_unterminated (buffer : List Char) (i : Nat) (q : Char)
    (hsym : buffer[i]? = some q) (hns : q ≠ '\\')
    (hnone : ∀ r, i + 1 ≤ r → r < buffer.length → ¬ buffer[r]? = some q) :
    match_symbol buffer i q = some buffer.length := by
  have hfvc : first_valid_close buffer q (i + 1) = none := by
    rcases le_or_lt (i + 1) buffer.length with hc | hc
    · have hall : ∀ r, i + 1 ≤ r → r < (i + 1) + (buffer.length - (i + 1)) →
          valid_close buffer q r = false := by
        intro r h1 h2
        have hrlt : r < buffer.length := by omega
        have hch : (charAt buffer r == q) = false := by
          cases hb : (charAt buffer r == q) with
          | false => rfl
          | true =>
              exfalso
              apply hnone r h1 hrlt
              have hcr : charAt buffer r = q := by simpa using hb
              unfold charAt at hcr
              rw [List.getD_eq_getElem _ _ hrlt] at hcr
              rw [List.getElem?_eq_getElem hrlt, hcr]
        unfold valid_close
        rw [hch]
        rfl
      rw [first_valid_close_shift buffer q (buffer.length - (i + 1)) (i + 1)
        (by omega) hall]
      exact first_valid_close_end buffer q _ (by omega)
    · exact first_valid_close_end buffer q (i + 1) (by omega)
  rw [match_symbol_escape_parity buffer i q hsym hns, hfvc]

theorem fcl_prefix_cond (pre mid : List Char)
    (hpre : ∀ c ∈ pre, fcl_plain c = true) :
    ∀ k, 0 ≤ k → k < 0 + pre.length →
      k < (pre ++ mid).length ∧ fcl_plain ((pre ++ mid).getD k ' ') = true := by
  intro k _ hk2
  have hk : k < pre.length := by omega
  refine ⟨by rw [List.length_append]; omega, ?_⟩
  rw [List.getD_eq_getElem?_getD, List.getElem?_append_left hk,
    List.getElem?_eq_getElem hk]
  exact hpre _ (List.getElem_mem hk)

theorem fcl_run_unterminated_string (nested : Bool) (pre tl : List Char)
    (al ac ab : Bool)
    (hpre : ∀ c ∈ pre, fcl_plain c = true)
    (htl : tl.contains '\"' = false) :
    find_comments_and_literals nested (pre ++ '\"' :: tl) al ac ab =
      Except.ok (if al then
        [⟨pre.length, pre.length + tl.length, .STRING⟩] else []) := by
  have hlen : (pre ++ '\"' :: tl).length = pre.length + 1 + tl.length := by
    rw [List.length_append, List.length_cons]; omega
  have hmid0 : (pre ++ '\"' :: tl)[pre.length]? = some '\"' := by
    rw [append_getElem_hi pre _ pre.length (le_refl _), Nat.sub_self,
      List.getElem?_cons_zero]
  have hnq : ∀ r, pre.length + 1 ≤ r → r < (pre ++ '\"' :: tl).length →
      ¬ (pre ++ '\"' :: tl)[r]? = some '\"' := by
    intro r h1 h2 hc
    rw [append_getElem_hi pre _ r (by omega)] at hc
    have hr : r - pre.length = (r - pre.length - 1) + 1 := by omega
    rw [hr, List.getElem?_cons_succ] at hc
    have hmem : '\"' ∈ tl := List.getElem?_mem hc
    rw [List.contains_eq_any_beq] at htl
    have hany : tl.any (fun x => '\"' == x) = true :=
      List.any_eq_true.mpr ⟨'\"', hmem, by simp⟩
    rw [htl] at hany
    cases hany
  have hms : match_symbol (pre ++ '\"' :: tl) pre.length '\"' =
      some (pre ++ '\"' :: tl).length :=
    match_symbol_unterminated _ pre.length '\"' hmid0 (by decide) hnq
  unfold find_comments_and_literals
  have hfuel : (pre ++ '\"' :: tl).length + 1 = ((tl.length + 1) + 1) + pre.length := by
    omega
  rw [hfuel, fcl_loop_plain_prefix nested _ al ac ab pre.length ((tl.length + 1) + 1) 0 []
    (fcl_prefix_cond pre _ hpre), Nat.zero_add]
  rw [fcl_loop_succ, if_pos (by omega),
    if_pos (by rw [List.getD_eq_getElem?_getD, hmid0]; rfl),
    hms]
  dsimp only
  have hm1 : (pre ++ '\"' :: tl).length - 1 = pre.length + tl.length := by omega
  rw [hm1, List.nil_append]
  exact fcl_loop_at_end nested _ al ac ab tl.length _ _ (le_refl _)

theorem fcl_run_unterminated_char (nested : Bool) (pre tl : List Char)
    (al ac ab : Bool)
    (hpre : ∀ c ∈ pre, fcl_plain c = true)
    (htl : tl.contains '\'' = false) :
    find_comments_and_literals nested (pre ++ '\'' :: tl) al ac ab =
      Except.ok (if al then
        [⟨pre.length, pre.length + tl.length, .LITERAL⟩] else []) := by
  have hlen : (pre ++ '\'' :: tl).length = pre.length + 1 + tl.length := by
    rw [List.length_append, List.length_cons]; omega
  have hmid0 : (pre ++ '\'' :: tl)[pre.length]? = some '\'' := by
    rw [append_getElem_hi pre _ pre.length (le_refl _), Nat.sub_self,
      List.getElem?_cons_zero]
  have hnq : ∀ r, pre.length + 1 ≤ r → r < (pre ++ '\'' :: tl).length →
      ¬ (pre ++ '\'' :: tl)[r]? = some '\'' := by
    intro r h1 h2 hc
    rw [append_getElem_hi pre _ r (by omega)] at hc
    have hr : r - pre.length = (r - pre.length - 1) + 1 := by omega
    rw [hr, List.getElem?_cons_succ] at hc
    have hmem : '\'' ∈ tl := List.getElem?_mem hc
    rw [List.contains_eq_any_beq] at htl
    have hany : tl.any (fun x => '\'' == x) = true :=
      List.any_eq_true.mpr ⟨'\'', hmem, by simp⟩
    rw [htl] at hany
    cases hany
  have hms : match_symbol (pre ++ '\'' :: tl) pre.length '\'' =
      some (pre ++ '\'' :: tl).length :=
    match_symbol_unterminated _ pre.length '\'' hmid0 (by decide) hnq
  unfold find_comments_and_literals
  have hfuel : (pre ++ '\'' :: tl).length + 1 = ((tl.length + 1) + 1) + pre.length := by
    omega
  rw [hfuel, fcl_loop_plain_prefix nested _ al ac ab pre.length ((tl.length + 1) + 1) 0 []
    (fcl_prefix_cond pre _ hpre), Nat.zero_add]
  rw [fcl_loop_succ, if_pos (by omega),
    if_neg (by rw [List.getD_eq_getElem?_getD, hmid0]; decide),
    if_pos (by rw [List.getD_eq_getElem?_getD, hmid0]; rfl),
    hms]
  dsimp only
  have hm1 : (pre ++ '\'' :: tl).length - 1 = pre.length + tl.length := by omega
  rw [hm1, List.nil_append]
  exact fcl_loop_at_end nested _ al ac ab tl.length _ _ (le_refl _)

theorem getElem_cons_cons (a b : α) (l : List α) (k : Nat) :
    (a :: b :: l)[k + 2]? = l[k]? := by
  show (a :: b :: l)[(k + 1) + 1]? = l[k]?
  rw [List.getElem?_cons_succ, List.getElem?_cons_succ]

theorem getElem_cons_one (a b : α) (l : List α) : (a :: b :: l)[1]? = some b := by
  have h1 : (a :: b :: l)[0 + 1]? = (b :: l)[0]? := List.getElem?_cons_succ
  exact h1.trans List.getElem?_cons_zero

theorem comment_family_no_terminator (pre tl : List Char)
    (hpre : ∀ c ∈ pre, fcl_plain c = true)
    (hterm : no_comment_terminator tl = true)
    (hhd : ¬ tl[0]? = some '/') :
    ∀ b, b + 1 < (pre ++ '/' :: '*' :: tl).length →
      ¬ ((pre ++ '/' :: '*' :: tl)[b]? = some '*' ∧
         (pre ++ '/' :: '*' :: tl)[b + 1]? = some '/') := by
  intro b hb
  rintro ⟨hs, hsl⟩
  have hlen : (pre ++ '/' :: '*' :: tl).length = pre.length + 2 + tl.length := by
    rw [List.length_append, List.length_cons, List.length_cons]; omega
  rw [hlen] at hb
  rcases Nat.lt_or_ge b pre.length with hb1 | hb1
  · rw [List.getElem?_append_left hb1, List.getElem?_eq_getElem hb1] at hs
    have hpl := fcl_plain_spec _ (hpre _ (List.getElem_mem hb1))
    have hstar : pre[b] = '*' := by simpa using hs
    rw [hstar] at hpl
    exact absurd hpl.2.2.2.2 (by decide)
  · rw [append_getElem_hi pre _ b hb1] at hs
    rw [append_getElem_hi pre _ (b + 1) (by omega)] at hsl
    rcases Nat.lt_or_ge b (pre.length + 1) with hb2 | hb2
    · have h0 : b - pre.length = 0 := by omega
      rw [h0, List.getElem?_cons_zero] at hs
      have : ('/' : Char) = '*' := by simpa using hs
      exact absurd this (by decide)
    · rcases Nat.lt_or_ge b (pre.length + 2) with hb3 | hb3
      · have h1 : b + 1 - pre.length = 2 := by omega
        rw [h1] at hsl
        have h2 : (('/' : Char) :: '*' :: tl)[2]? = tl[0]? :=
          getElem_cons_cons '/' '*' tl 0
        rw [h2] at hsl
        exact hhd hsl
      · have hk : b - pre.length = (b - pre.length - 2) + 2 := by omega
        have hk1 : b + 1 - pre.length = ((b - pre.length - 2) + 1) + 2 := by omega
        rw [hk] at hs
        rw [hk1] at hsl
        rw [getElem_cons_cons] at hs
        rw [getElem_cons_cons] at hsl
        have hs2 : tl[b - pre.length - 2]? = some '*' := hs
        have hsl2 : tl[(b - pre.length - 2) + 1]? = some '/' := hsl
        have hkl1 : (b - pre.length - 2) + 1 < tl.length := by
          by_contra hcc
          rw [List.getElem?_eq_none (by omega)] at hsl2
          cases hsl2
        unfold no_comment_terminator at hterm
        have hx := List.all_eq_true.mp hterm _
          (List.mem_range.mpr (show b - pre.length - 2 < tl.length by omega))
        have hgd1 : tl.getD (b - pre.length - 2) ' ' = '*' := by
          rw [List.getD_eq_getElem?_getD, hs2]; rfl
        have hgd2 : tl.getD ((b - pre.length - 2) + 1) ' ' = '/' := by
          rw [List.getD_eq_getElem?_getD, hsl2]; rfl
        rw [hgd1, hgd2] at hx
        exact absurd hx (by decide)

theorem fcl_run_unterminated_comment_nested (pre tl : List Char) (al ac ab : Bool)
    (hpre : ∀ c ∈ pre, fcl_plain c = true)
    (hterm : no_comment_terminator tl = true)
    (hhd : ¬ tl[0]? = some '/') :
    find_comments_and_literals true (pre ++ '/' :: '*' :: tl) al ac ab =
      Except.error () := by
  have hlen : (pre ++ '/' :: '*' :: tl).length = pre.length + 2 + tl.length := by
    rw [List.length_append, List.length_cons, List.length_cons]; omega
  have h0 : (pre ++ '/' :: '*' :: tl)[pre.length]? = some '/' := by
    rw [append_getElem_hi pre _ pre.length (le_refl _), Nat.sub_self,
      List.getElem?_cons_zero]
  have h1 : (pre ++ '/' :: '*' :: tl)[pre.length + 1]? = some '*' := by
    rw [append_getElem_hi pre _ (pre.length + 1) (by omega)]
    have hone : pre.length + 1 - pre.length = 1 := by omega
    rw [hone]
    exact getElem_cons_one '/' '*' tl
  have hmb := match_bracket_unterminated (pre ++ '/' :: '*' :: tl) pre.length h0 h1
    (comment_family_no_terminator pre tl hpre hterm hhd)
  unfold find_comments_and_literals
  have hfuel : (pre ++ '/' :: '*' :: tl).length + 1 =
      ((tl.length + 2) + 1) + pre.length := by omega
  rw [hfuel, fcl_loop_plain_prefix true _ al ac ab pre.length ((tl.length + 2) + 1) 0 []
    (fcl_prefix_cond pre _ hpre), Nat.zero_add]
  rw [fcl_loop_succ, if_pos (by omega),
    if_neg (by rw [List.getD_eq_getElem?_getD, h0]; decide),
    if_neg (by rw [List.getD_eq_getElem?_getD, h0]; decide),
    if_pos (by rw [List.getD_eq_getElem?_getD, h0]; rfl),
    if_pos (by unfold charAt; rw [List.getD_eq_getElem?_getD, h1]; rfl),
    if_pos rfl, hmb]

theorem fcl_run_unterminated_comment_plain (pre tl : List Char) (al ac ab : Bool)
    (hpre : ∀ c ∈ pre, fcl_plain c = true)
    (hterm : no_comment_terminator tl = true)
    (hhd : ¬ tl[0]? = some '/') :
    find_comments_and_literals false (pre ++ '/' :: '*' :: tl) al ac ab =
      Except.ok (if ac then
        [⟨pre.length, pre.length + 1 + tl.length, .COMMENT⟩] else []) := by
  have hlen : (pre ++ '/' :: '*' :: tl).length = pre.length + 2 + tl.length := by
    rw [List.length_append, List.length_cons, List.length_cons]; omega
  have h0 : (pre ++ '/' :: '*' :: tl)[pre.length]? = some '/' := by
    rw [append_getElem_hi pre _ pre.length (le_refl _), Nat.sub_self,
      List.getElem?_cons_zero]
  have h1 : (pre ++ '/' :: '*' :: tl)[pre.length + 1]? = some '*' := by
    rw [append_getElem_hi pre _ (pre.length + 1) (by omega)]
    have hone : pre.length + 1 - pre.length = 1 := by omega
    rw [hone]
    exact getElem_cons_one '/' '*' tl
  have hmc : matchComment (pre ++ '/' :: '*' :: tl) pre.length =
      some (pre ++ '/' :: '*' :: tl).length :=
    matchComment_to_end _ pre.length
      (by unfold charAt; rw [List.getD_eq_getElem?_getD, h0]; rfl)
      (by unfold charAt; rw [List.getD_eq_getElem?_getD, h1]; rfl)
      (fun k _ hk2 => comment_family_no_terminator pre tl hpre hterm hhd k hk2)
  unfold find_comments_and_literals
  have hfuel : (pre ++ '/' :: '*' :: tl).length + 1 =
      ((tl.length + 2) + 1) + pre.length := by omega
  rw [hfuel, fcl_loop_plain_prefix false _ al ac ab pre.length ((tl.length + 2) + 1) 0 []
    (fcl_prefix_cond pre _ hpre), Nat.zero_add]
  rw [fcl_loop_succ, if_pos (by omega),
    if_neg (by rw [List.getD_eq_getElem?_getD, h0]; decide),
    if_neg (by rw [List.getD_eq_getElem?_getD, h0]; decide),
    if_pos (by rw [List.getD_eq_getElem?_getD, h0]; rfl),
    if_pos (by unfold charAt; rw [List.getD_eq_getElem?_getD, h1]; rfl),
    if_neg (Bool.false_ne_true), hmc]
  dsimp only
  have hm1 : (pre ++ '/' :: '*' :: tl).length - 1 = pre.length + 1 + tl.length := by omega
  rw [hm1, List.nil_append]
  exact fcl_loop_at_end false _ al ac ab (tl.length + 1) _ _ (le_refl _)

/-- C3 counterexample: the buffer `/*x` holds a comment opener with no
terminator, yet the `-not_nested` configuration does not abort — `matchComment`
falls back to the buffer length when `strstr` finds no `*\x2f`, the
`assert(end > 0)` passes, and the pass returns a comment item running to the
end of the buffer.  Only the nested-comment configuration is fatal, via the
`match_bracket` failure. -/
theorem unterminated_comment_counterexample :
    find_comments_and_literals false ['/', '*', 'x'] true true true =
      Except.ok [⟨0, 2, pragma_type.COMMENT⟩] ∧
    find_comments_and_literals true ['/', '*', 'x'] true true true =
      Except.error () :=
  ⟨rfl, rfl⟩

/-- C3 (amended): on a buffer of plain bytes followed by a `/*` opener with no
`*\x2f` terminator anywhere after it, the classification pass aborts in the
nested-comment configuration but is tolerated in the `-not_nested`
configuration, where the comment item runs to the end of the buffer; an
unterminated string or character literal is tolerated in both configurations
and likewise runs to the end of the buffer. -/
theorem unterminated_comment_nested_only
    (pre tailc tails tailq : List Char) (al ac ab : Bool)
    (hpre : ∀ c ∈ pre, fcl_plain c = true)
    (hterm : no_comment_terminator tailc = true)
    (hhd : ¬ tailc[0]? = some '/')
    (hs : tails.contains '\"' = false)
    (hq : tailq.contains '\'' = false) :
    find_comments_and_literals true (pre ++ '/' :: '*' :: tailc) al ac ab =
        Except.error () ∧
    find_comments_and_literals false (pre ++ '/' :: '*' :: tailc) al ac ab =
        Except.ok (if ac then
          [⟨pre.length, pre.length + 1 + tailc.length, pragma_type.COMMENT⟩] else []) ∧
    (∀ nested : Bool,
      find_comments_and_literals nested (pre ++ '\"' :: tails) al ac ab =
        Except.ok (if al then
          [⟨pre.length, pre.length + tails.length, pragma_type.STRING⟩] else [])) ∧
    (∀ nested : Bool,
      find_comments_and_literals nested (pre ++ '\'' :: tailq) al ac ab =
        Except.ok (if al then
          [⟨pre.length, pre.length + tailq.length, pragma_type.LITERAL⟩] else [])) :=
  ⟨fcl_run_unterminated_comment_nested pre tailc al ac ab hpre hterm hhd,
   fcl_run_unterminated_comment_plain pre tailc al ac ab hpre hterm hhd,
   fun nested => fcl_run_unterminated_string nested pre tails al ac ab hpre hs,
   fun nested => fcl_run_unterminated_char nested pre tailq al ac ab hpre hq⟩

/-- Witness for the amended C3 theorem at the concrete instance
`pre = "a"`, comment tail `"b"`, string tail `"c"`, char tail `"d"`. -/
theorem unterminated_comment_nested_only_witness :
    (∀ c ∈ ['a'], fcl_plain c = true) ∧
    no_comment_terminator ['b'] = true ∧
    ¬ (['b'] : List Char)[0]? = some '/' ∧
    (['c'] : List Char).contains '\"' = false ∧
    (['d'] : List Char).contains '\'' = false ∧
    find_comments_and_literals true (['a'] ++ '/' :: '*' :: ['b']) true true true =
      Except.error () :=
  ⟨by decide, by decide, by decide, by decide, by decide,
   (unterminated_comment_nested_only ['a'] ['b'] ['c'] ['d'] true true true
     (by decide) (by decide) (by decide) (by decide) (by decide)).1⟩
